import Mathlib

/-!
Shallow embedding of `gen.py` (TreeGen): a procedural generator of a forest
of random trees drawn on shared per-depth pools of 2-D grid points.

Python integers are modelled as `Nat`/`Int`; grid coordinates (which may be
offset by one half) are stored in half-units: a stored coordinate `v : Int`
represents the value `v / 2`, so every grid point of the source is an even
pair here and the `(0.5, 0.5)` offset of `get_layer` becomes `(1, 1)`.
Halving is injective and affine, so distinctness and membership of points
are unchanged by this choice of representation.  The global `random` source is
modelled as an oracle `Nat → Nat` together with a position counter: each
`random.randint`/`random.choice` call consumes one oracle value, reduced
modulo the size of the range it chooses from, so every possible sequence of
random outcomes is realised by some oracle and every oracle realises a
possible run.  Fallible operations (drawing from an empty layer, which
raises in Python) return `Option`.
-/

/-- A 2-D grid point `(x, z)` in half-units: `(a, b)` stands for the
source's point `(a / 2, b / 2)`. -/
abbrev Point := Int × Int

/-- `translate_layer(layer, translation)` from `gen.py`: translates each
point in a layer by a vector. -/
def translate_layer (layer : List Point) (translation : Point) : List Point :=
  layer.map (fun x => (x.1 + translation.1, x.2 + translation.2))

/-- `get_layer(size)` from `gen.py`: all integer combinations in a
`(3+size*2) x (3+size*2)` grid, translated by `(-(size+1), -(size+1))`, and
additionally by `(0.5, 0.5)` when `size` is even.  The Python comprehension
`[(k, m) for k in range(size*2+3) for m in range(size*2+3)]` iterates `k`
in the outer loop. -/
def get_layer (size : Nat) : List Point :=
  let layer : List Point :=
    (List.range (size * 2 + 3)).flatMap
      (fun (k : Nat) => (List.range (size * 2 + 3)).map
        (fun (m : Nat) => ((2 * k : Int), (2 * m : Int))))
  let layer := translate_layer layer
    (-(2 * ((size : Int) + 1)), -(2 * ((size : Int) + 1)))
  if size % 2 == 0 then translate_layer layer (1, 1) else layer

/-- The inner `while` of `generate_layers`: starting from the current `ct`,
keep incrementing `ct` until `get_layer ct` has at least `need` points.
`fuel` bounds the search; `findCt_spec` shows `fuel = need` always
suffices, so the bounded search computes exactly what the Python
(unbounded) `while` loop computes. -/
def findCt (need : Nat) : Nat → Nat → Nat
  | 0, ct => ct
  | fuel + 1, ct =>
    if need ≤ (get_layer ct).length then ct else findCt need fuel (ct + 1)

/-- The main `while` of `generate_layers`: append layers until `numLayers`
of them exist.  `d` is the number of layers appended so far
(`len(nodes)`); `ct` persists across iterations exactly as in the source.
The unused Python variable `i` is omitted. -/
def generate_layers_aux (numTrees maxChild : Nat) : Nat → Nat → Nat → List (List Point)
  | 0, _, _ => []
  | remaining + 1, ct, d =>
    let need := numTrees * maxChild ^ (d + 1)
    let ct2 := findCt need need ct
    get_layer ct2 :: generate_layers_aux numTrees maxChild remaining ct2 (d + 1)

/-- `start_nodes = [divmod(i, 3) for i in range(0, NUM_TREES)]`. -/
def start_nodes (numTrees : Nat) : List Point :=
  (List.range numTrees).map
    (fun i => ((2 * (i / 3 : Nat) : Int), (2 * (i % 3 : Nat) : Int)))

/-- `generate_layers()` from `gen.py`, parameterised by the global
constants it reads (`NUM_TREES`, `NUM_LAYERS`, `MAX_CHILD`). -/
def generate_layers (numTrees numLayers maxChild : Nat) :
    List Point × List (List Point) :=
  (start_nodes numTrees, generate_layers_aux numTrees maxChild numLayers 1 0)

/-- A node record `(ID, x, y, z, parent)` as stored in `Tree.tree`. -/
structure Node where
  id : Int
  x : Int
  y : Int
  z : Int
  parent : Int
deriving DecidableEq, Inhabited

/-- The mutable state threaded through `Tree.generate`: the tree under
construction (`self.tree`), its node counter (`self.ct`), the shared layer
pools (`layers`, mutated in place), and the random source. -/
structure GenState where
  tree : List Node
  ct : Nat
  layers : List (List Point)
  oracle : Nat → Nat
  pos : Nat

/-- Python's `list.remove(p)`: removes the first element equal to `p`. -/
def list_remove (l : List Point) (p : Point) : List Point :=
  match l with
  | [] => []
  | q :: rest => if q = p then rest else q :: list_remove rest p

/-- `Tree.add_node(node, parent, layer)`: appends
`(self.ct, node[0], -layer, node[1], parent)` to the tree, increments
`self.ct` and returns the new node's ID (`self.ct - 1` after the
increment). -/
def mkNode (ct : Nat) (node : Point) (parent : Int) (layer : Nat) : Node :=
  ⟨(ct : Int), node.1, -(layer : Int), node.2, parent⟩

def add_node (st : GenState) (node : Point) (parent : Int) (layer : Nat) :
    GenState × Int :=
  ({ st with
      tree := st.tree ++ [mkNode st.ct node parent layer],
      ct := st.ct + 1 },
   (st.ct : Int))

/-- `random.randint(MIN_CHILD, MAX_CHILD)`: one oracle value reduced into
the inclusive range; `none` models the `ValueError` Python raises when the
range is empty (`maxChild < minChild`). -/
def draw_branch (minChild maxChild : Nat) (st : GenState) : Option (GenState × Nat) :=
  if maxChild < minChild then none
  else some ({ st with pos := st.pos + 1 },
             minChild + st.oracle st.pos % (maxChild - minChild + 1))

/-- `new_node = random.choice(layers[layer]); layers[layer].remove(new_node)`:
draw one point of `layers[layer]` and remove (the first occurrence of) it.
`none` models the `IndexError` Python raises when the layer is empty (or
the index is out of range, in which case the pool defaults to `[]`). -/
def draw_point (st : GenState) (layer : Nat) : Option (GenState × Point) :=
  let l := st.layers.getD layer []
  if l.length = 0 then none
  else
    let p := l.getD (st.oracle st.pos % l.length) (0, 0)
    some ({ st with
              layers := st.layers.set layer (list_remove l p),
              pos := st.pos + 1 },
          p)

/-- The `for i in range(rand)` loop of `Tree.generate`: draw a point from
`layers[layer]`, recurse one layer deeper (the recursive call is the
parameter `rec`), and continue with the remaining iterations. -/
def child_loop (rec : Point → Int → Nat → GenState → Option GenState) :
    Nat → Int → Nat → GenState → Option GenState
  | 0, _, _, st => some st
  | k + 1, pid, layer, st =>
    match draw_point st layer with
    | none => none
    | some sp =>
      match rec sp.2 pid (layer + 1) sp.1 with
      | none => none
      | some st3 => child_loop rec k pid layer st3

/-- One call of `Tree.generate(node, layers, parent, layer)`: add the node,
stop if `layer >= self.num_layers`, otherwise choose a branching factor
and run the child loop.  `rec` is the recursive call at `layer + 1`. -/
def gen_step (minChild maxChild numLayers : Nat)
    (rec : Point → Int → Nat → GenState → Option GenState)
    (node : Point) (parent : Int) (layer : Nat) (st : GenState) :
    Option GenState :=
  let a := add_node st node parent layer
  if numLayers ≤ layer then some a.1
  else
    match draw_branch minChild maxChild a.1 with
    | none => none
    | some b => child_loop rec b.2 a.2 layer b.1

/-- `Tree.generate`, with an explicit recursion budget `fuel`.  The Python
recursion terminates because `layer` strictly increases towards
`self.num_layers`; any `fuel > numLayers - layer` is enough (see
`generate_fuel_irrelevant`-style facts proved below), so `fuel = 0`
(`none`) is unreachable from the actual entry point. -/
def generate (minChild maxChild numLayers : Nat) :
    Nat → Point → Int → Nat → GenState → Option GenState
  | 0 => fun _ _ _ _ => none
  | fuel + 1 => gen_step minChild maxChild numLayers
      (generate minChild maxChild numLayers fuel)

/-- The data of one constructed `Tree`: its node list, node counter and
`self.num_layers` (set to `len(layers)` in `Tree.__init__`). -/
structure TreeData where
  tree : List Node
  ct : Nat
  num_layers : Nat
deriving DecidableEq, Inhabited

/-- `Tree.__init__(start_node, layers)`: runs the full generation
`self.generate(start_node, layers, 0, 0)` starting from an empty tree and
counter 0; returns the tree together with the drained layers and the
advanced oracle position. -/
def tree_init (minChild maxChild : Nat) (start : Point)
    (layers : List (List Point)) (oracle : Nat → Nat) (pos : Nat) :
    Option (TreeData × List (List Point) × Nat) :=
  match generate minChild maxChild layers.length (layers.length + 1)
      start 0 0 ⟨[], 0, layers, oracle, pos⟩ with
  | none => none
  | some st => some (⟨st.tree, st.ct, layers.length⟩, st.layers, st.pos)

/-- `Question.__init__(start_nodes, layers)`: grow one tree per start node,
sequentially, all trees sharing (and draining) the same layer pools. -/
def question_init (minChild maxChild : Nat) :
    List Point → List (List Point) → (Nat → Nat) → Nat →
    Option (List TreeData × List (List Point) × Nat)
  | [], layers, _, pos => some ([], layers, pos)
  | s :: rest, layers, oracle, pos =>
    match tree_init minChild maxChild s layers oracle pos with
    | none => none
    | some t =>
      match question_init minChild maxChild rest t.2.1 oracle t.2.2 with
      | none => none
      | some q => some (t.1 :: q.1, q.2.1, q.2.2)

/-- The whole generation pipeline of `main()` up to the point where the
forest exists: `generate_layers()` followed by `Question.__init__`. -/
def run_program (numTrees numLayers minChild maxChild : Nat)
    (oracle : Nat → Nat) :
    Option (List TreeData × List (List Point) × Nat) :=
  question_init minChild maxChild (generate_layers numTrees numLayers maxChild).1
    (generate_layers numTrees numLayers maxChild).2 oracle 0

/-- The body of the `for r in range(len(self.tree))` loop of
`Tree.translate`: rebuild the row at index `r` with `num` added to its
first (`ID`) and last (`parent`) components. -/
def translate_row (l : List Node) (num : Int) (r : Nat) : List Node :=
  match l.get? r with
  | none => l
  | some row => l.set r ⟨row.id + num, row.x, row.y, row.z, row.parent + num⟩

/-- `Tree.translate(num)`: index loop over the whole node list. -/
def TreeData.translate (t : TreeData) (num : Int) : TreeData :=
  { t with tree := (List.range t.tree.length).foldl (fun l r => translate_row l num r) t.tree }

/-- `Tree.num_nodes()`. -/
def TreeData.num_nodes (t : TreeData) : Nat := t.tree.length

/-- `random.choice(seq)`: uniform choice of one element, `none` on an empty
sequence (Python raises `IndexError`). -/
def list_choice {α : Type} [Inhabited α] (l : List α) (oracle : Nat → Nat)
    (pos : Nat) : Option (α × Nat) :=
  if l.length = 0 then none
  else some (l.getD (oracle pos % l.length) default, pos + 1)

/-- `Tree.get_random_leaf()`: uniform choice among the rows whose stored
depth coordinate `row[2]` equals `-self.num_layers`. -/
def get_random_leaf (t : TreeData) (oracle : Nat → Nat) (pos : Nat) :
    Option (Node × Nat) :=
  list_choice (t.tree.filter (fun r => r.y == -(t.num_layers : Int)))
    oracle pos

/-- The first loop of `Question.__str__`: `ct = 0`, then for each tree
`tree.translate(ct); ct += tree.num_nodes()`. -/
def translate_pass : List TreeData → Nat → List TreeData
  | [], _ => []
  | t :: ts, ct =>
    let t2 := t.translate (ct : Int)
    t2 :: translate_pass ts (ct + t2.num_nodes)

/-- One output record of `Tree.__str__`: the stored row with the depth
coordinate printed as `row[2] - 1`. -/
def tree_rows (t : TreeData) : List Node :=
  t.tree.map (fun r => { r with y := r.y - 1 })

/-- The structured content of the string built by `Question.__str__`:
the marker line (the chosen leaf's ID) followed by one row per node, in
forest order.  (The fixed header literal and the comma/newline glue are
injective formatting and carry no further information.) -/
structure StrOut where
  marker : Int
  rows : List Node
deriving DecidableEq

/-- `Question.__str__`: translate all trees in place (this mutates the
`Question`!), pick a random tree then a random leaf of it, and emit the
marker plus all rows.  Returns the output together with the mutated tree
list and the advanced oracle position. -/
def question_str (trees : List TreeData) (oracle : Nat → Nat) (pos : Nat) :
    Option (StrOut × List TreeData × Nat) :=
  let ts := translate_pass trees 0
  match list_choice ts oracle pos with
  | none => none
  | some tp =>
    match get_random_leaf tp.1 oracle tp.2 with
    | none => none
    | some lp =>
      some (⟨lp.1.id, ts.flatMap tree_rows⟩, ts, lp.2)

/-- `sumPow b n = 1 + b + b^2 + ... + b^(n-1)`: the extremal node count of
a tree whose every node at the first `n - 1` levels has exactly `b`
children. -/
def sumPow (b : Nat) : Nat → Nat
  | 0 => 0
  | n + 1 => 1 + b * sumPow b n

/-- All node records of a forest, in forest order. -/
def forest_nodes (ts : List TreeData) : List Node :=
  ts.flatMap TreeData.tree

/-- The nodes of a node list lying at tree depth `e` (stored depth
coordinate `-e`). -/
def nodes_at_depth (l : List Node) (e : Nat) : List Node :=
  l.filter (fun r => r.y == -(e : Int))

/-- What `Tree.translate num` does to a single row. -/
def translate_node (num : Int) (r : Node) : Node :=
  ⟨r.id + num, r.x, r.y, r.z, r.parent + num⟩

/-- The `(x, z)` coordinates of a node record. -/
def node_pos (r : Node) : Point := (r.x, r.z)

/-- The per-tree node counts of the forest generated with
`NUM_TREES = 2`, `NUM_LAYERS = 2`, `MIN_CHILD = 1`, `MAX_CHILD = 2`. -/
def c8_tree_sizes (oracle : Nat → Nat) : Option (List Nat) :=
  (run_program 2 2 1 2 oracle).map (fun r => r.1.map TreeData.num_nodes)

/-- Run the full pipeline with `NUM_TREES = 2`, `NUM_LAYERS = 1`,
`MIN_CHILD = MAX_CHILD = 1`, then call `Question.__str__` twice; return
whether the two outputs coincide and whether the tree data was left
unchanged by the first call. -/
def c5_double_str : Option (Bool × Bool) :=
  match run_program 2 1 1 1 (fun _ => 0) with
  | none => none
  | some (ts, _, pos') =>
    match question_str ts (fun _ => 0) pos' with
    | none => none
    | some (out1, ts1, pos1) =>
      match question_str ts1 (fun _ => 0) pos1 with
      | none => none
      | some (out2, _, _) => some (decide (out1 = out2), decide (ts1 = ts))

/-- Everything a successful call `generate ... node parent layer st = some st'`
guarantees, with `rest` the strict descendants of `node` appended after it.
Each field is an invariant used by one or more claims. -/
structure GenOut (mc xc nl : Nat) (node : Point) (parent : Int) (layer : Nat)
    (st st' : GenState) (rest : List Node) : Prop where
  tree_eq : st'.tree = st.tree ++ mkNode st.ct node parent layer :: rest
  ct_eq : st'.ct = st.ct + rest.length + 1
  ids : (mkNode st.ct node parent layer :: rest).map Node.id
      = (List.range (rest.length + 1)).map (fun (i : Nat) => (st.ct : Int) + (i : Int))
  deeper : ∀ r ∈ rest, r.y < -(layer : Int)
  ybound : ∀ r ∈ rest, -(nl : Int) ≤ r.y
  parents : ∀ r ∈ rest, ∃ q ∈ mkNode st.ct node parent layer :: rest,
      q.id = r.parent ∧ q.y = r.y + 1
  layers_len : st'.layers.length = st.layers.length
  oracle_eq : st'.oracle = st.oracle
  pools : ∀ d : Nat, (st.layers.getD d [] : Multiset Point)
      = (st'.layers.getD d [] : Multiset Point)
        + ↑((nodes_at_depth rest (d + 1)).map node_pos)
  count_le : ∀ e : Nat,
      (nodes_at_depth (mkNode st.ct node parent layer :: rest) e).length
        ≤ xc ^ (e - layer)
  size_lb : sumPow mc (nl - layer + 1) ≤ rest.length + 1
  size_ub : rest.length + 1 ≤ sumPow xc (nl - layer + 1)
  has_leaf : 1 ≤ mc →
      ∃ r ∈ mkNode st.ct node parent layer :: rest, r.y = -(nl : Int)
  internal_child : ∀ r ∈ mkNode st.ct node parent layer :: rest,
      -(nl : Int) < r.y → 1 ≤ mc →
      ∃ c ∈ mkNode st.ct node parent layer :: rest,
        c.parent = r.id ∧ c.y = r.y - 1

/-- Everything a successful `child_loop rec k pid layer st = some st'`
guarantees, with `news` the nodes of the `k` child subtrees in order. -/
structure ChildOut (mc xc nl k : Nat) (pid : Int) (layer : Nat)
    (st st' : GenState) (news : List Node) : Prop where
  tree_eq : st'.tree = st.tree ++ news
  ct_eq : st'.ct = st.ct + news.length
  ids : news.map Node.id
      = (List.range news.length).map (fun (i : Nat) => (st.ct : Int) + (i : Int))
  deeper : ∀ r ∈ news, r.y ≤ -((layer : Int) + 1)
  ybound : ∀ r ∈ news, -(nl : Int) ≤ r.y
  parents : ∀ r ∈ news,
      (r.y = -((layer : Int) + 1) → r.parent = pid) ∧
      (r.y < -((layer : Int) + 1) → ∃ q ∈ news, q.id = r.parent ∧ q.y = r.y + 1)
  layers_len : st'.layers.length = st.layers.length
  oracle_eq : st'.oracle = st.oracle
  pools : ∀ d : Nat, (st.layers.getD d [] : Multiset Point)
      = (st'.layers.getD d [] : Multiset Point)
        + ↑((nodes_at_depth news (d + 1)).map node_pos)
  count_le : ∀ e : Nat,
      (nodes_at_depth news e).length ≤ k * xc ^ (e - (layer + 1))
  size_lb : k * sumPow mc (nl - layer) ≤ news.length
  size_ub : news.length ≤ k * sumPow xc (nl - layer)
  has_leaf : 1 ≤ mc → 1 ≤ k → ∃ r ∈ news, r.y = -(nl : Int)
  head_child : 1 ≤ k → ∃ c ∈ news, c.y = -((layer : Int) + 1) ∧ c.parent = pid
  internal_child : ∀ r ∈ news, -(nl : Int) < r.y → 1 ≤ mc →
      ∃ c ∈ news, c.parent = r.id ∧ c.y = r.y - 1

/-- The per-tree consequences of `Tree.__init__(start, layers)`:
shape and numbering of the node list of one constructed tree. -/
structure TreeFacts (mc xc nl : Nat) (start : Point) (t : TreeData) : Prop where
  nl_eq : t.num_layers = nl
  ct_eq : t.ct = t.tree.length
  shape : ∃ rest, t.tree = mkNode 0 start 0 0 :: rest ∧ ∀ r ∈ rest, r.y < 0
  ids : t.tree.map Node.id
      = (List.range t.tree.length).map (fun (i : Nat) => (i : Int))
  ybound : ∀ r ∈ t.tree, -(nl : Int) ≤ r.y ∧ r.y ≤ 0
  parents : ∀ r ∈ t.tree, r.y ≠ 0 →
      ∃ q ∈ t.tree, q.id = r.parent ∧ q.y = r.y + 1
  size_lb : sumPow mc (nl + 1) ≤ t.tree.length
  size_ub : t.tree.length ≤ sumPow xc (nl + 1)
  has_leaf : 1 ≤ mc → ∃ r ∈ t.tree, r.y = -(nl : Int)
  internal_child : ∀ r ∈ t.tree, -(nl : Int) < r.y → 1 ≤ mc →
      ∃ c ∈ t.tree, c.parent = r.id ∧ c.y = r.y - 1

/-! ### Basic list, grid and translation lemmas -/

lemma list_remove_coe (p : Point) :
    ∀ l : List Point, p ∈ l →
      (l : Multiset Point) = ↑(list_remove l p) + {p} := by
  intro l
  induction l with
  | nil => intro hp; cases hp
  | cons q rest ih =>
    intro hp
    by_cases hq : q = p
    · subst hq
      rw [list_remove, if_pos rfl, ← Multiset.cons_coe, ← Multiset.singleton_add,
        add_comm]
    · have hp' : p ∈ rest := by
        rcases List.mem_cons.mp hp with h | h
        · exact absurd h.symm hq
        · exact h
      rw [list_remove, if_neg hq, ← Multiset.cons_coe, ← Multiset.cons_coe,
        ih hp', Multiset.cons_add]

lemma list_remove_length (p : Point) (l : List Point) (hp : p ∈ l) :
    (list_remove l p).length + 1 = l.length := by
  have := congrArg Multiset.card (list_remove_coe p l hp)
  simpa using this.symm

lemma get_layer_length (s : Nat) :
    (get_layer s).length = (s * 2 + 3) * (s * 2 + 3) := by
  unfold get_layer translate_layer
  by_cases h : s % 2 == 0 <;>
    simp [h, List.length_flatMap, Function.comp_def, List.map_const',
      List.sum_replicate, smul_eq_mul]

lemma translate_layer_nodup {l : List Point} (t : Point) (h : l.Nodup) :
    (translate_layer l t).Nodup := by
  refine List.Nodup.map ?_ h
  intro a b hab
  have h1 : a.1 + t.1 = b.1 + t.1 := congrArg Prod.fst hab
  have h2 : a.2 + t.2 = b.2 + t.2 := congrArg Prod.snd hab
  exact Prod.ext (by omega) (by omega)

lemma get_layer_nodup (s : Nat) : (get_layer s).Nodup := by
  have base : ((List.range (s * 2 + 3)).flatMap
      (fun (k : Nat) => (List.range (s * 2 + 3)).map
        (fun (m : Nat) => ((2 * k : Int), (2 * m : Int))))).Nodup := by
    refine List.nodup_flatMap.mpr ⟨?_, ?_⟩
    · intro k _
      refine List.Nodup.map ?_ (List.nodup_range _)
      intro a b hab
      have h2 := congrArg Prod.snd hab
      simp only at h2
      omega
    · refine List.Pairwise.imp ?_ (List.pairwise_lt_range (s * 2 + 3))
      intro a b hab
      simp only [Function.onFun, List.disjoint_left]
      rintro x hx hx'
      rcases List.mem_map.mp hx with ⟨m, _, rfl⟩
      rcases List.mem_map.mp hx' with ⟨m', _, h⟩
      have h2 : (2 * (b : Int)) = (2 * (a : Int)) := congrArg Prod.fst h
      omega
  unfold get_layer
  by_cases h : s % 2 == 0
  · simp only [h, if_true]
    exact translate_layer_nodup _ (translate_layer_nodup _ base)
  · simp only [h, if_false]
    exact translate_layer_nodup _ base

lemma start_nodes_nodup (n : Nat) : (start_nodes n).Nodup := by
  refine List.Nodup.map ?_ (List.nodup_range n)
  intro a b hab
  have h1 := congrArg Prod.fst hab
  have h2 := congrArg Prod.snd hab
  simp only at h1 h2
  omega

lemma nodup_map_inj {α β : Type} {f : α → β} {l : List α}
    (h : (l.map f).Nodup) :
    ∀ a ∈ l, ∀ b ∈ l, f a = f b → a = b := by
  induction l with
  | nil => intro a ha; cases ha
  | cons x xs ih =>
    simp only [List.map_cons, List.nodup_cons, List.mem_map] at h
    intro a ha b hb hfab
    rcases List.mem_cons.mp ha with rfl | ha' <;>
      rcases List.mem_cons.mp hb with rfl | hb'
    · rfl
    · exact absurd ⟨b, hb', hfab.symm⟩ h.1
    · exact absurd ⟨a, ha', hfab⟩ h.1
    · exact ih h.2 a ha' b hb' hfab

lemma translate_row_eq (l : List Node) (num : Int) (k : Nat) (h : k < l.length) :
    translate_row l num k = l.set k (translate_node num (l.get ⟨k, h⟩)) := by
  unfold translate_row
  rw [List.get?_eq_getElem?, List.getElem?_eq_getElem h]
  rfl

lemma translate_foldl_take (num : Int) (l : List Node) :
    ∀ k, k ≤ l.length →
      (List.range k).foldl (fun acc r => translate_row acc num r) l
        = (l.take k).map (translate_node num) ++ l.drop k := by
  intro k
  induction k with
  | zero => simp
  | succ k ih =>
    intro hk
    have hk' : k < l.length := hk
    rw [List.range_succ, List.foldl_append, ih (Nat.le_of_succ_le hk)]
    have hlenA : ((l.take k).map (translate_node num)).length = k := by
      simp [Nat.min_eq_left (Nat.le_of_succ_le hk)]
    simp only [List.foldl_cons, List.foldl_nil]
    have hklen : k < (List.map (translate_node num) (List.take k l) ++ List.drop k l).length := by
      simp only [List.length_append, hlenA, List.length_drop]
      omega
    have hget : (List.map (translate_node num) (List.take k l) ++ List.drop k l).get
        ⟨k, hklen⟩ = l[k] := by
      rw [List.get_eq_getElem]
      rw [List.getElem_append_right (le_of_eq hlenA)]
      simp only [List.getElem_drop, hlenA]
      congr 1
      omega
    rw [translate_row_eq _ num k hklen]
    rw [hget]
    rw [List.set_append_right _ _ (le_of_eq hlenA), hlenA, Nat.sub_self]
    rw [List.drop_eq_getElem_cons hk', List.set_cons_zero]
    have htake : List.take (k + 1) (List.map (translate_node num) l)
        = List.take k (List.map (translate_node num) l)
          ++ [translate_node num l[k]] := by
      rw [List.take_succ, List.getElem?_map, List.getElem?_eq_getElem hk']
      rfl
    rw [List.map_take, List.map_take, htake, List.append_assoc]
    rfl

lemma translate_tree_eq (t : TreeData) (num : Int) :
    (t.translate num).tree = t.tree.map (translate_node num) := by
  show (List.range t.tree.length).foldl (fun l r => translate_row l num r) t.tree
      = t.tree.map (translate_node num)
  rw [translate_foldl_take num t.tree t.tree.length le_rfl]
  simp

lemma translate_num_layers (t : TreeData) (num : Int) :
    (t.translate num).num_layers = t.num_layers := rfl

lemma translate_ct (t : TreeData) (num : Int) :
    (t.translate num).ct = t.ct := rfl

lemma translate_num_nodes (t : TreeData) (num : Int) :
    (t.translate num).num_nodes = t.num_nodes := by
  show (t.translate num).tree.length = t.tree.length
  rw [translate_tree_eq]; simp

/-! ### Layer sizing: `findCt` and `generate_layers` -/

lemma findCt_le_length (need : Nat) :
    ∀ fuel ct, need ≤ (get_layer (ct + fuel)).length →
      need ≤ (get_layer (findCt need fuel ct)).length := by
  intro fuel
  induction fuel with
  | zero => intro ct h; simpa using h
  | succ fuel ih =>
    intro ct h
    rw [findCt]
    by_cases hc : need ≤ (get_layer ct).length
    · simpa [hc]
    · rw [if_neg hc]
      apply ih (ct + 1)
      have harith : ct + 1 + fuel = ct + (fuel + 1) := by omega
      rwa [harith]

lemma findCt_spec (need ct : Nat) :
    need ≤ (get_layer (findCt need need ct)).length := by
  apply findCt_le_length
  rw [get_layer_length]
  calc need ≤ (ct + need) * 2 + 3 := by omega
    _ ≤ ((ct + need) * 2 + 3) * ((ct + need) * 2 + 3) :=
      Nat.le_mul_of_pos_left _ (by omega)

lemma generate_layers_aux_length (nt xc : Nat) :
    ∀ rem ct d, (generate_layers_aux nt xc rem ct d).length = rem := by
  intro rem
  induction rem with
  | zero => intro ct d; rfl
  | succ rem ih => intro ct d; simp [generate_layers_aux, ih]

lemma generate_layers_aux_size (nt xc : Nat) :
    ∀ rem ct d j, j < rem →
      nt * xc ^ (d + j + 1)
        ≤ ((generate_layers_aux nt xc rem ct d).getD j []).length := by
  intro rem
  induction rem with
  | zero => intro ct d j h; omega
  | succ rem ih =>
    intro ct d j hj
    cases j with
    | zero =>
      simpa [generate_layers_aux] using
        findCt_spec (nt * xc ^ (d + 1)) ct
    | succ j =>
      rw [generate_layers_aux]
      show nt * xc ^ (d + (j + 1) + 1)
          ≤ ((generate_layers_aux nt xc rem _ (d + 1)).getD j []).length
      have harith : d + (j + 1) + 1 = (d + 1) + j + 1 := by omega
      rw [harith]
      exact ih _ (d + 1) j (by omega)

lemma generate_layers_length (nt nl xc : Nat) :
    (generate_layers nt nl xc).2.length = nl :=
  generate_layers_aux_length nt xc nl 1 0

lemma generate_layers_size (nt nl xc : Nat) (d : Nat) (hd : d < nl) :
    nt * xc ^ (d + 1) ≤ ((generate_layers nt nl xc).2.getD d []).length := by
  have := generate_layers_aux_size nt xc nl 1 0 d hd
  simpa using this

lemma generate_layers_mem_nodup (nt nl xc : Nat) (d : Nat) :
    ((generate_layers nt nl xc).2.getD d []).Nodup := by
  show ((generate_layers_aux nt xc nl 1 0).getD d []).Nodup
  have : ∀ rem ct d0 j, ((generate_layers_aux nt xc rem ct d0).getD j []).Nodup := by
    intro rem
    induction rem with
    | zero => intro ct d0 j; simp [generate_layers_aux]
    | succ rem ih =>
      intro ct d0 j
      cases j with
      | zero => simpa [generate_layers_aux] using get_layer_nodup _
      | succ j => simpa [generate_layers_aux] using ih _ (d0 + 1) j
  exact this nl 1 0 d

/-! ### Facts about the elementary state operations -/

lemma nodes_at_depth_append (l1 l2 : List Node) (e : Nat) :
    nodes_at_depth (l1 ++ l2) e = nodes_at_depth l1 e ++ nodes_at_depth l2 e := by
  simp [nodes_at_depth]

lemma nodes_at_depth_cons (r : Node) (l : List Node) (e : Nat) :
    nodes_at_depth (r :: l) e
      = if r.y = -(e : Int) then r :: nodes_at_depth l e else nodes_at_depth l e := by
  unfold nodes_at_depth
  by_cases h : r.y = -(e : Int) <;> simp [List.filter_cons, h]

lemma nodes_at_depth_nil (e : Nat) : nodes_at_depth [] e = [] := rfl

lemma draw_point_out {st : GenState} {layer : Nat} {st2 : GenState} {p : Point}
    (h : draw_point st layer = some (st2, p)) :
    st2.tree = st.tree ∧ st2.ct = st.ct ∧ st2.oracle = st.oracle ∧
    st2.layers.length = st.layers.length ∧
    p ∈ st.layers.getD layer [] ∧
    st2.layers.getD layer [] = list_remove (st.layers.getD layer []) p ∧
    (∀ d, d ≠ layer → st2.layers.getD d [] = st.layers.getD d []) := by
  unfold draw_point at h
  dsimp only at h
  split at h
  · exact absurd h (by simp)
  · rename_i hl
    have hlt : layer < st.layers.length := by
      by_contra hge
      have hnil : st.layers.getD layer [] = [] :=
        List.getD_eq_default _ _ (by omega)
      rw [hnil] at hl
      exact hl rfl
    have heq := Option.some.inj h
    have hst2 := congrArg Prod.fst heq
    have hp := congrArg Prod.snd heq
    dsimp only at hst2 hp
    subst hst2
    have hidx : st.oracle st.pos % (st.layers.getD layer []).length
        < (st.layers.getD layer []).length :=
      Nat.mod_lt _ (Nat.pos_of_ne_zero hl)
    have hpm : p ∈ st.layers.getD layer [] := by
      rw [← hp, List.getD_eq_getElem _ _ hidx]
      exact List.getElem_mem _
    refine ⟨rfl, rfl, rfl, by simp, hpm, ?_, ?_⟩
    · show (st.layers.set layer _).getD layer [] = _
      rw [hp]
      simp only [List.getD, List.get?_eq_getElem?,
        List.getElem?_set_self (by simpa using hlt)]
      rfl
    · intro d hd
      show (st.layers.set layer _).getD d [] = _
      simp only [List.getD, List.get?_eq_getElem?,
        List.getElem?_set_ne (Ne.symm hd)]

lemma draw_branch_out {mc xc : Nat} {st : GenState} {b : GenState × Nat}
    (h : draw_branch mc xc st = some b) :
    b.1.tree = st.tree ∧ b.1.ct = st.ct ∧ b.1.layers = st.layers ∧
    b.1.oracle = st.oracle ∧ mc ≤ b.2 ∧ b.2 ≤ xc := by
  unfold draw_branch at h
  by_cases hx : xc < mc
  · simp [hx] at h
  · simp only [hx, if_false] at h
    obtain rfl := (Option.some.inj h).symm
    have hmod : st.oracle st.pos % (xc - mc + 1) ≤ xc - mc :=
      Nat.lt_succ_iff.mp (Nat.mod_lt _ (by omega))
    exact ⟨rfl, rfl, rfl, rfl, by omega, by omega⟩

/-! ### ID-range bookkeeping helpers -/

lemma range_map_add (c a b : Nat) :
    (List.range (a + b)).map (fun (i : Nat) => (c : Int) + (i : Int))
      = (List.range a).map (fun (i : Nat) => (c : Int) + (i : Int))
        ++ (List.range b).map (fun (i : Nat) => ((c + a : Nat) : Int) + (i : Int)) := by
  rw [List.range_add, List.map_append, List.map_map]
  congr 1
  apply List.map_congr_left
  intro i _
  simp only [Function.comp_apply]
  push_cast
  ring

lemma range_map_cons (c n : Nat) :
    (List.range (n + 1)).map (fun (i : Nat) => (c : Int) + (i : Int))
      = (c : Int) :: (List.range n).map (fun (i : Nat) => ((c + 1 : Nat) : Int) + (i : Int)) := by
  simp only [List.range_succ_eq_map, List.map_cons, List.map_map,
    Nat.cast_zero, add_zero, List.cons.injEq]
  refine ⟨trivial, ?_⟩
  apply List.map_congr_left
  intro i _
  simp only [Function.comp_apply, Nat.succ_eq_add_one]
  push_cast
  ring

/-! ### The master invariants of `child_loop` and `generate` -/

lemma child_loop_out (mc xc nl layer : Nat)
    (rec : Point → Int → Nat → GenState → Option GenState)
    (hrec : ∀ node parent st st', rec node parent (layer + 1) st = some st' →
        ∃ rest, GenOut mc xc nl node parent (layer + 1) st st' rest)
    (hlay : layer + 1 ≤ nl) :
    ∀ k pid st st', child_loop rec k pid layer st = some st' →
      ∃ news, ChildOut mc xc nl k pid layer st st' news := by
  intro k
  induction k with
  | zero =>
    intro pid st st' h
    rw [child_loop] at h
    obtain rfl := Option.some.inj h
    refine ⟨[], ?_⟩
    exact {
      tree_eq := by simp
      ct_eq := by simp
      ids := by simp
      deeper := by intro r hr; cases hr
      ybound := by intro r hr; cases hr
      parents := by intro r hr; cases hr
      layers_len := rfl
      oracle_eq := rfl
      pools := by intro d; simp [nodes_at_depth]
      count_le := by intro e; simp [nodes_at_depth]
      size_lb := by simp
      size_ub := by simp
      has_leaf := by intro _ hk; omega
      head_child := by intro hk; omega
      internal_child := by intro r hr; cases hr }
  | succ k ih =>
    intro pid st st' h
    rw [child_loop] at h
    cases hdp : draw_point st layer with
    | none => rw [hdp] at h; cases h
    | some sp =>
      rw [hdp] at h
      obtain ⟨st2, p⟩ := sp
      dsimp only at h
      cases hrc : rec p pid (layer + 1) st2 with
      | none => rw [hrc] at h; cases h
      | some st3 =>
        rw [hrc] at h
        dsimp only at h
        obtain ⟨e_tree, e_ct, e_orac, e_len, hpmem, hlrem, hlother⟩ :=
          draw_point_out hdp
        obtain ⟨rest1, G⟩ := hrec _ _ _ _ hrc
        obtain ⟨news2, C⟩ := ih pid st3 st' h
        refine ⟨(mkNode st2.ct p pid (layer + 1) :: rest1) ++ news2, ?_⟩
        have hcast : -(((layer : Nat) + 1 : Nat) : Int) = -((layer : Int) + 1) := by
          push_cast; ring
        have hmky : (mkNode st2.ct p pid (layer + 1)).y = -((layer : Int) + 1) := by
          show -(((layer + 1 : Nat)) : Int) = _
          push_cast; ring
        have hlen : ((mkNode st2.ct p pid (layer + 1) :: rest1) ++ news2).length
            = (rest1.length + 1) + news2.length := by
          simp [List.length_append]
          omega
        have hsub : nl - (layer + 1) + 1 = nl - layer := by omega
        exact {
          tree_eq := by
            rw [C.tree_eq, G.tree_eq, e_tree, List.append_assoc]
          ct_eq := by
            rw [C.ct_eq, G.ct_eq, e_ct]
            simp only [List.length_cons, List.length_append]
            omega
          ids := by
            have hct3 : st3.ct = st.ct + (rest1.length + 1) := by
              rw [G.ct_eq, e_ct]
              omega
            rw [List.map_append, G.ids, C.ids, hlen, hct3, e_ct]
            exact (range_map_add st.ct (rest1.length + 1) news2.length).symm
          deeper := by
            intro r hr
            rcases List.mem_append.mp hr with hr1 | hr2
            · rcases List.mem_cons.mp hr1 with rfl | hr1'
              · rw [hmky]
              · have := G.deeper r hr1'
                rw [hcast] at this
                omega
            · exact C.deeper r hr2
          ybound := by
            intro r hr
            rcases List.mem_append.mp hr with hr1 | hr2
            · rcases List.mem_cons.mp hr1 with rfl | hr1'
              · rw [hmky]; omega
              · exact G.ybound r hr1'
            · exact C.ybound r hr2
          parents := by
            intro r hr
            rcases List.mem_append.mp hr with hr1 | hr2
            · rcases List.mem_cons.mp hr1 with rfl | hr1'
              · refine ⟨fun _ => rfl, fun hlt => ?_⟩
                rw [hmky] at hlt
                omega
              · have hdeep := G.deeper r hr1'
                rw [hcast] at hdeep
                refine ⟨fun heq => ?_, fun _ => ?_⟩
                · omega
                · obtain ⟨q, hq, hq1, hq2⟩ := G.parents r hr1'
                  exact ⟨q, List.mem_append_left _ hq, hq1, hq2⟩
            · obtain ⟨h1, h2⟩ := C.parents r hr2
              refine ⟨h1, fun hlt => ?_⟩
              obtain ⟨q, hq, hq1, hq2⟩ := h2 hlt
              exact ⟨q, List.mem_append_right _ hq, hq1, hq2⟩
          layers_len := by rw [C.layers_len, G.layers_len, e_len]
          oracle_eq := by rw [C.oracle_eq, G.oracle_eq, e_orac]
          pools := by
            intro d
            rw [nodes_at_depth_append, nodes_at_depth_cons, List.map_append]
            by_cases hd : d = layer
            · subst hd
              rw [if_pos (by rw [hmky]; push_cast; ring)]
              have h0 : (st.layers.getD d [] : Multiset Point)
                  = ↑(st2.layers.getD d []) + {p} := by
                rw [hlrem]
                exact list_remove_coe p _ hpmem
              rw [h0, G.pools d, C.pools d, List.map_cons,
                (show node_pos (mkNode st2.ct p pid (d + 1)) = p from Prod.mk.eta),
                ← Multiset.coe_add, ← Multiset.cons_coe, ← Multiset.singleton_add]
              abel
            · rw [if_neg (by rw [hmky]; intro hcon; apply hd; omega)]
              rw [← hlother d hd, G.pools d, C.pools d,
                ← Multiset.coe_add]
              abel
          count_le := by
            intro e
            rw [nodes_at_depth_append, List.length_append]
            have h1 := G.count_le e
            have h2 := C.count_le e
            calc (nodes_at_depth (mkNode st2.ct p pid (layer + 1) :: rest1) e).length
                  + (nodes_at_depth news2 e).length
                ≤ xc ^ (e - (layer + 1)) + k * xc ^ (e - (layer + 1)) :=
                  Nat.add_le_add h1 h2
              _ = (k + 1) * xc ^ (e - (layer + 1)) := by ring
          size_lb := by
            rw [hlen]
            have h1 := G.size_lb
            rw [hsub] at h1
            have h2 := C.size_lb
            calc (k + 1) * sumPow mc (nl - layer)
                = sumPow mc (nl - layer) + k * sumPow mc (nl - layer) := by ring
              _ ≤ (rest1.length + 1) + news2.length := Nat.add_le_add h1 h2
          size_ub := by
            rw [hlen]
            have h1 := G.size_ub
            rw [hsub] at h1
            have h2 := C.size_ub
            calc (rest1.length + 1) + news2.length
                ≤ sumPow xc (nl - layer) + k * sumPow xc (nl - layer) :=
                  Nat.add_le_add h1 h2
              _ = (k + 1) * sumPow xc (nl - layer) := by ring
          has_leaf := by
            intro hmc _
            obtain ⟨r, hr, hry⟩ := G.has_leaf hmc
            exact ⟨r, List.mem_append_left _ hr, hry⟩
          head_child := by
            intro _
            exact ⟨mkNode st2.ct p pid (layer + 1),
              List.mem_append_left _ (List.mem_cons_self _ _), hmky, rfl⟩
          internal_child := by
            intro r hr hry hmc
            rcases List.mem_append.mp hr with hr1 | hr2
            · obtain ⟨c, hc, hc1, hc2⟩ := G.internal_child r hr1 hry hmc
              exact ⟨c, List.mem_append_left _ hc, hc1, hc2⟩
            · obtain ⟨c, hc, hc1, hc2⟩ := C.internal_child r hr2 hry hmc
              exact ⟨c, List.mem_append_right _ hc, hc1, hc2⟩ }

lemma nodes_at_depth_eq_nil {l : List Node} {e : Nat}
    (h : ∀ r ∈ l, r.y ≠ -(e : Int)) : nodes_at_depth l e = [] := by
  unfold nodes_at_depth
  rw [List.filter_eq_nil_iff]
  intro r hr
  simpa using h r hr

lemma generate_out (mc xc nl : Nat) : ∀ fuel node parent layer st st',
    layer ≤ nl →
    generate mc xc nl fuel node parent layer st = some st' →
    ∃ rest, GenOut mc xc nl node parent layer st st' rest := by
  intro fuel
  induction fuel with
  | zero =>
    intro node parent layer st st' _ h
    rw [generate] at h
    cases h
  | succ fuel ih =>
    intro node parent layer st st' hlay h
    rw [generate] at h
    unfold gen_step at h
    dsimp only at h
    by_cases hstop : nl ≤ layer
    · rw [if_pos hstop] at h
      obtain rfl := Option.some.inj h
      have hle : layer = nl := le_antisymm hlay hstop
      refine ⟨[], ?_⟩
      exact {
        tree_eq := rfl
        ct_eq := rfl
        ids := by simp [mkNode, add_node, List.range_succ]
        deeper := by intro r hr; cases hr
        ybound := by intro r hr; cases hr
        parents := by intro r hr; cases hr
        layers_len := rfl
        oracle_eq := rfl
        pools := by intro d; simp [nodes_at_depth, add_node]
        count_le := by
          intro e
          rw [nodes_at_depth_cons]
          by_cases he : e = layer
          · subst he
            rw [if_pos (show (mkNode st.ct node parent e).y = -((e : Nat) : Int) from rfl),
              nodes_at_depth_nil]
            simp
          · rw [if_neg (by
              show -((layer : Nat) : Int) = -(e : Int) → False
              intro hcon
              apply he
              omega), nodes_at_depth_nil]
            simp
        size_lb := by
          have h0 : nl - layer = 0 := by omega
          rw [h0]
          simp [sumPow]
        size_ub := by
          have h0 : nl - layer = 0 := by omega
          rw [h0]
          simp [sumPow]
        has_leaf := by
          intro _
          refine ⟨_, List.mem_cons_self _ _, ?_⟩
          show -((layer : Nat) : Int) = -((nl : Nat) : Int)
          omega
        internal_child := by
          intro r hr hry _
          rcases List.mem_cons.mp hr with rfl | hr'
          · refine absurd hry ?_
            show ¬(-((nl : Nat) : Int) < -((layer : Nat) : Int))
            omega
          · cases hr' }
    · rw [if_neg hstop] at h
      cases hdb : draw_branch mc xc (add_node st node parent layer).1 with
      | none => rw [hdb] at h; cases h
      | some b =>
        rw [hdb] at h
        dsimp only at h
        obtain ⟨db_tree, db_ct, db_layers, db_orac, hmcle, hxcle⟩ :=
          draw_branch_out hdb
        have hlay1 : layer + 1 ≤ nl := by omega
        obtain ⟨news, C⟩ := child_loop_out mc xc nl layer _
          (fun n pr s s' hh => ih n pr (layer + 1) s s' hlay1 hh) hlay1
          b.2 _ _ _ h
        refine ⟨news, ?_⟩
        have ha_tree : (add_node st node parent layer).1.tree
            = st.tree ++ [mkNode st.ct node parent layer] := rfl
        have ha_ct : (add_node st node parent layer).1.ct = st.ct + 1 := rfl
        have ha_layers : (add_node st node parent layer).1.layers = st.layers := rfl
        have ha_orac : (add_node st node parent layer).1.oracle = st.oracle := rfl
        have hb_tree : b.1.tree = st.tree ++ [mkNode st.ct node parent layer] := by
          rw [db_tree, ha_tree]
        have hb_ct : b.1.ct = st.ct + 1 := by rw [db_ct, ha_ct]
        have hb_layers : b.1.layers = st.layers := by rw [db_layers, ha_layers]
        have hb_orac : b.1.oracle = st.oracle := by rw [db_orac, ha_orac]
        have hnewsdeep := C.deeper
        have hmc1 : ∀ hm : 1 ≤ mc, 1 ≤ b.2 := fun hm => le_trans hm hmcle
        exact {
          tree_eq := by
            rw [C.tree_eq, hb_tree, List.append_assoc]
            rfl
          ct_eq := by
            rw [C.ct_eq, hb_ct]
            omega
          ids := by
            rw [List.map_cons, C.ids, hb_ct,
              (show (mkNode st.ct node parent layer).id = (st.ct : Int) from rfl)]
            exact (range_map_cons st.ct news.length).symm
          deeper := by
            intro r hr
            have := hnewsdeep r hr
            omega
          ybound := by
            intro r hr
            exact C.ybound r hr
          parents := by
            intro r hr
            have hd := hnewsdeep r hr
            rcases lt_or_eq_of_le hd with hlt | heq
            · obtain ⟨q, hq, hq1, hq2⟩ := (C.parents r hr).2 hlt
              exact ⟨q, List.mem_cons_of_mem _ hq, hq1, hq2⟩
            · refine ⟨mkNode st.ct node parent layer, List.mem_cons_self _ _, ?_, ?_⟩
              · rw [(C.parents r hr).1 heq]
                rfl
              · show -((layer : Nat) : Int) = r.y + 1
                omega
          layers_len := by rw [C.layers_len, hb_layers]
          oracle_eq := by rw [C.oracle_eq, hb_orac]
          pools := by
            intro d
            have := C.pools d
            rw [hb_layers] at this
            exact this
          count_le := by
            intro e
            rw [nodes_at_depth_cons]
            by_cases hel : e = layer
            · subst hel
              rw [if_pos (show (mkNode st.ct node parent e).y = -((e : Nat) : Int) from rfl),
                nodes_at_depth_eq_nil (fun r hr => by
                  have := hnewsdeep r hr
                  omega)]
              simp
            · rw [if_neg (by
                show -((layer : Nat) : Int) = -(e : Int) → False
                intro hcon
                apply hel
                omega)]
              by_cases hle2 : e ≤ layer
              · rw [nodes_at_depth_eq_nil (fun r hr => by
                  have := hnewsdeep r hr
                  omega)]
                simp
              · have h2 := C.count_le e
                have hpow : xc ^ (e - (layer + 1)) * xc = xc ^ (e - layer) := by
                  rw [← pow_succ]
                  congr 1
                  omega
                calc (nodes_at_depth news e).length
                    ≤ b.2 * xc ^ (e - (layer + 1)) := h2
                  _ ≤ xc * xc ^ (e - (layer + 1)) :=
                      Nat.mul_le_mul_right _ hxcle
                  _ = xc ^ (e - layer) := by rw [mul_comm, hpow]
          size_lb := by
            have h1 := C.size_lb
            have hsub : nl - layer = (nl - (layer + 1)) + 1 := by omega
            have : mc * sumPow mc (nl - layer) ≤ b.2 * sumPow mc (nl - layer) :=
              Nat.mul_le_mul_right _ hmcle
            show sumPow mc (nl - layer + 1) ≤ news.length + 1
            rw [sumPow]
            omega
          size_ub := by
            have h1 := C.size_ub
            have : b.2 * sumPow xc (nl - layer) ≤ xc * sumPow xc (nl - layer) :=
              Nat.mul_le_mul_right _ hxcle
            show news.length + 1 ≤ sumPow xc (nl - layer + 1)
            rw [sumPow]
            omega
          has_leaf := by
            intro hmc
            obtain ⟨r, hr, hry⟩ := C.has_leaf hmc (hmc1 hmc)
            exact ⟨r, List.mem_cons_of_mem _ hr, hry⟩
          internal_child := by
            intro r hr hry hmc
            rcases List.mem_cons.mp hr with rfl | hr'
            · obtain ⟨c, hc, hcy, hcp⟩ := C.head_child (hmc1 hmc)
              refine ⟨c, List.mem_cons_of_mem _ hc, ?_, ?_⟩
              · rw [hcp]; rfl
              · show c.y = -((layer : Nat) : Int) - 1
                omega
            · obtain ⟨c, hc, hc1, hc2⟩ := C.internal_child r hr' hry hmc
              exact ⟨c, List.mem_cons_of_mem _ hc, hc1, hc2⟩ }

/-! ### Success: generation never exhausts a sufficiently sized pool -/

lemma child_loop_succeeds (mc xc nl layer : Nat)
    (rec : Point → Int → Nat → GenState → Option GenState)
    (hrec_out : ∀ node parent st st', rec node parent (layer + 1) st = some st' →
        ∃ rest, GenOut mc xc nl node parent (layer + 1) st st' rest)
    (hrec_succ : ∀ node parent st,
        (∀ d, layer + 1 ≤ d → d < nl →
          xc ^ (d - layer) ≤ (st.layers.getD d []).length) →
        (rec node parent (layer + 1) st).isSome) :
    ∀ k pid st, layer < nl →
      (∀ d, layer ≤ d → d < nl →
        k * xc ^ (d - layer) ≤ (st.layers.getD d []).length) →
      (child_loop rec k pid layer st).isSome := by
  intro k
  induction k with
  | zero => intro pid st _ _; rw [child_loop]; rfl
  | succ k ih =>
    intro pid st hln hpool
    rw [child_loop]
    have hmain : ¬(st.layers.getD layer []).length = 0 := by
      have h0 := hpool layer le_rfl hln
      rw [Nat.sub_self, pow_zero, Nat.mul_one] at h0
      omega
    cases hdp : draw_point st layer with
    | none =>
      exfalso
      unfold draw_point at hdp
      dsimp only at hdp
      rw [if_neg hmain] at hdp
      cases hdp
    | some sp =>
      obtain ⟨st2, p⟩ := sp
      dsimp only
      obtain ⟨e_tree, e_ct, e_orac, e_len, hpmem, hlrem, hlother⟩ :=
        draw_point_out hdp
      have hpool2 : ∀ d, layer + 1 ≤ d → d < nl →
          xc ^ (d - layer) ≤ (st2.layers.getD d []).length := by
        intro d hd1 hd2
        rw [hlother d (by omega)]
        have h0 := hpool d (by omega) hd2
        calc xc ^ (d - layer) = 1 * xc ^ (d - layer) := (one_mul _).symm
          _ ≤ (k + 1) * xc ^ (d - layer) :=
              Nat.mul_le_mul_right _ (by omega)
          _ ≤ _ := h0
      have hsucc := hrec_succ p pid st2 hpool2
      cases hrc : rec p pid (layer + 1) st2 with
      | none => rw [hrc] at hsucc; cases hsucc
      | some st3 =>
        dsimp only
        obtain ⟨rest1, G⟩ := hrec_out p pid st2 st3 hrc
        apply ih pid st3 hln
        intro d hd1 hd2
        have hcard := congrArg Multiset.card (G.pools d)
        rw [Multiset.card_add] at hcard
        simp only [Multiset.coe_card, List.length_map] at hcard
        by_cases hdl : d = layer
        · subst hdl
          have hdrawn0 : nodes_at_depth rest1 (d + 1) = [] :=
            nodes_at_depth_eq_nil (fun r hr => by
              have := G.deeper r hr
              omega)
          have hlr : (st2.layers.getD d []).length + 1
              = (st.layers.getD d []).length := by
            rw [hlrem]
            exact list_remove_length p _ hpmem
          have h0 := hpool d le_rfl hd2
          rw [Nat.sub_self, pow_zero, Nat.mul_one] at h0 ⊢
          rw [hdrawn0] at hcard
          simp only [List.map_nil, List.length_nil, Nat.add_zero] at hcard
          omega
        · have hd1' : layer + 1 ≤ d := by omega
          have hcnt := G.count_le (d + 1)
          have hsplit : nodes_at_depth (mkNode st2.ct p pid (layer + 1) :: rest1) (d + 1)
              = nodes_at_depth rest1 (d + 1) := by
            rw [nodes_at_depth_cons, if_neg]
            show ¬(-(((layer + 1 : Nat)) : Int) = -(((d + 1 : Nat)) : Int))
            intro hcon
            apply hdl
            omega
          have hexp : (d + 1) - (layer + 1) = d - layer := by omega
          rw [hsplit, hexp] at hcnt
          have h0 := hpool d (by omega) hd2
          rw [← hlother d hdl] at h0
          have hmul : (k + 1) * xc ^ (d - layer)
              = k * xc ^ (d - layer) + xc ^ (d - layer) := by ring
          rw [hmul] at h0
          generalize hA : k * xc ^ (d - layer) = A at h0 ⊢
          generalize hX : xc ^ (d - layer) = X at h0 hcnt
          omega

lemma generate_succeeds (mc xc nl : Nat) (hmx : mc ≤ xc) :
    ∀ fuel node parent layer st,
      layer ≤ nl → nl < layer + fuel →
      (∀ d, layer ≤ d → d < nl →
        xc ^ (d - layer + 1) ≤ (st.layers.getD d []).length) →
      (generate mc xc nl fuel node parent layer st).isSome := by
  intro fuel
  induction fuel with
  | zero => intro node parent layer st h1 h2 _; omega
  | succ fuel ih =>
    intro node parent layer st hlay hfuel hpool
    rw [generate]
    unfold gen_step
    dsimp only
    by_cases hstop : nl ≤ layer
    · rw [if_pos hstop]; rfl
    · rw [if_neg hstop]
      cases hdb : draw_branch mc xc (add_node st node parent layer).1 with
      | none =>
        exfalso
        unfold draw_branch at hdb
        rw [if_neg (by omega)] at hdb
        cases hdb
      | some b =>
        dsimp only
        obtain ⟨db_tree, db_ct, db_layers, db_orac, hmcle, hxcle⟩ :=
          draw_branch_out hdb
        apply child_loop_succeeds mc xc nl layer _
          (fun n pr s s' hh =>
            generate_out mc xc nl fuel n pr (layer + 1) s s' (by omega) hh)
          (fun n pr s hp =>
            ih n pr (layer + 1) s (by omega) (by omega) (by
              intro d hd1 hd2
              have h0 := hp d hd1 hd2
              rwa [(show d - (layer + 1) + 1 = d - layer from by omega)]))
          b.2 _ b.1 (by omega)
        intro d hd1 hd2
        rw [db_layers,
          (show (add_node st node parent layer).1.layers = st.layers from rfl)]
        have h0 := hpool d hd1 hd2
        have hbound : b.2 * xc ^ (d - layer) ≤ xc * xc ^ (d - layer) :=
          Nat.mul_le_mul_right _ hxcle
        have hpow : xc * xc ^ (d - layer) = xc ^ (d - layer + 1) := by
          rw [pow_succ, mul_comm]
        omega

/-! ### Tree- and forest-level consequences -/

lemma tree_init_out {mc xc : Nat} {start : Point} {layers : List (List Point)}
    {oracle : Nat → Nat} {pos : Nat} {t : TreeData}
    {layers' : List (List Point)} {pos' : Nat}
    (h : tree_init mc xc start layers oracle pos = some (t, layers', pos')) :
    TreeFacts mc xc layers.length start t ∧
    layers'.length = layers.length ∧
    (∀ d, (layers.getD d [] : Multiset Point)
        = (layers'.getD d [] : Multiset Point)
          + ↑((nodes_at_depth t.tree (d + 1)).map node_pos)) ∧
    (∀ e, (nodes_at_depth t.tree e).length ≤ xc ^ e) ∧
    (nodes_at_depth t.tree 0).map node_pos = [start] := by
  unfold tree_init at h
  cases hg : generate mc xc layers.length (layers.length + 1) start 0 0
      ⟨[], 0, layers, oracle, pos⟩ with
  | none => rw [hg] at h; cases h
  | some st' =>
    rw [hg] at h
    obtain ⟨rest, G⟩ :=
      generate_out mc xc layers.length _ start 0 0 _ st' (by omega) hg
    have heq := Option.some.inj h
    have ht : t = ⟨st'.tree, st'.ct, layers.length⟩ := (congrArg Prod.fst heq).symm
    have hl : layers' = st'.layers := by
      have := congrArg (fun q : TreeData × List (List Point) × Nat => q.2.1) heq
      exact this.symm
    subst ht
    subst hl
    have htree : st'.tree = mkNode 0 start 0 0 :: rest := by
      rw [G.tree_eq]
      rfl
    have hy0 : ∀ r ∈ rest, r.y < 0 := by
      intro r hr
      have := G.deeper r hr
      omega
    have hlen : st'.tree.length = rest.length + 1 := by rw [htree]; rfl
    have hd0 : nodes_at_depth st'.tree 0 = [mkNode 0 start 0 0] := by
      rw [htree, nodes_at_depth_cons,
        if_pos (show (mkNode 0 start 0 0).y = -((0 : Nat) : Int) from by
          show -((0 : Nat) : Int) = _
          simp),
        nodes_at_depth_eq_nil (fun r hr => by
          have := hy0 r hr
          omega)]
    have hdrop : ∀ d : Nat,
        nodes_at_depth st'.tree (d + 1) = nodes_at_depth rest (d + 1) := by
      intro d
      rw [htree, nodes_at_depth_cons, if_neg]
      show ¬(-((0 : Nat) : Int) = -(((d + 1 : Nat)) : Int))
      intro hcon
      omega
    refine ⟨?_, ?_, ?_, ?_, ?_⟩
    · exact {
        nl_eq := rfl
        ct_eq := by
          show st'.ct = st'.tree.length
          rw [G.ct_eq, hlen]
          show 0 + rest.length + 1 = rest.length + 1
          omega
        shape := ⟨rest, htree, hy0⟩
        ids := by
          show st'.tree.map Node.id = _
          rw [htree]
          simp only [List.length_cons]
          have hids := G.ids
          simp only [(show (⟨[], 0, layers, oracle, pos⟩ : GenState).ct = 0 from rfl)] at hids
          rw [(show mkNode 0 start 0 0 :: rest
              = mkNode (⟨[], 0, layers, oracle, pos⟩ : GenState).ct start 0 0 :: rest from rfl),
            hids]
          apply List.map_congr_left
          intro i _
          simp
        ybound := by
          intro r hr
          show -((layers.length : Nat) : Int) ≤ r.y ∧ r.y ≤ 0
          rw [htree] at hr
          rcases List.mem_cons.mp hr with rfl | hr'
          · constructor
            · show -((layers.length : Nat) : Int) ≤ -((0 : Nat) : Int)
              omega
            · show -((0 : Nat) : Int) ≤ 0
              omega
          · exact ⟨G.ybound r hr', le_of_lt (by
              have := G.deeper r hr'
              omega)⟩
        parents := by
          intro r hr hy
          show ∃ q ∈ st'.tree, _
          rw [htree] at hr ⊢
          rcases List.mem_cons.mp hr with rfl | hr'
          · exact absurd (show (mkNode 0 start 0 0).y = 0 from by
              show -((0 : Nat) : Int) = 0
              simp) hy
          · obtain ⟨q, hq, h1, h2⟩ := G.parents r hr'
            exact ⟨q, hq, h1, h2⟩
        size_lb := by
          show sumPow mc (layers.length + 1) ≤ st'.tree.length
          rw [hlen]
          have := G.size_lb
          simpa using this
        size_ub := by
          show st'.tree.length ≤ sumPow xc (layers.length + 1)
          rw [hlen]
          have := G.size_ub
          simpa using this
        has_leaf := by
          intro hmc
          obtain ⟨r, hr, hry⟩ := G.has_leaf hmc
          show ∃ r ∈ st'.tree, _
          rw [htree]
          exact ⟨r, hr, hry⟩
        internal_child := by
          intro r hr hry hmc
          show ∃ c ∈ st'.tree, _
          replace hr : r ∈ st'.tree := hr
          rw [htree] at hr ⊢
          obtain ⟨c, hc, h1, h2⟩ := G.internal_child r hr hry hmc
          exact ⟨c, hc, h1, h2⟩ }
    · exact G.layers_len
    · intro d
      show (layers.getD d [] : Multiset Point) = _
      rw [hdrop d]
      exact G.pools d
    · intro e
      have := G.count_le e
      show (nodes_at_depth st'.tree e).length ≤ xc ^ e
      rw [htree]
      simpa using this
    · show (nodes_at_depth st'.tree 0).map node_pos = [start]
      rw [hd0]
      show [(start.1, start.2)] = [start]
      rw [Prod.mk.eta]

lemma tree_init_isSome (mc xc : Nat) (hmx : mc ≤ xc)
    (start : Point) (layers : List (List Point)) (oracle : Nat → Nat) (pos : Nat)
    (hpool : ∀ d, d < layers.length → xc ^ (d + 1) ≤ (layers.getD d []).length) :
    (tree_init mc xc start layers oracle pos).isSome := by
  unfold tree_init
  have hs := generate_succeeds mc xc layers.length hmx (layers.length + 1)
    start 0 0 ⟨[], 0, layers, oracle, pos⟩ (by omega) (by omega) (by
      intro d hd1 hd2
      have h0 := hpool d hd2
      rwa [(show d - 0 + 1 = d + 1 from by omega)])
  cases hg : generate mc xc layers.length (layers.length + 1) start 0 0
      ⟨[], 0, layers, oracle, pos⟩ with
  | none => rw [hg] at hs; cases hs
  | some st' => rfl

lemma question_init_isSome (mc xc : Nat) (hmx : mc ≤ xc) :
    ∀ (starts : List Point) (layers : List (List Point)) (oracle : Nat → Nat)
      (pos : Nat),
      (∀ d, d < layers.length →
        starts.length * xc ^ (d + 1) ≤ (layers.getD d []).length) →
      (question_init mc xc starts layers oracle pos).isSome := by
  intro starts
  induction starts with
  | nil => intro layers oracle pos _; rw [question_init]; rfl
  | cons s rest ih =>
    intro layers oracle pos hpool
    rw [question_init]
    have htree := tree_init_isSome mc xc hmx s layers oracle pos (fun d hd => by
      have h0 := hpool d hd
      have h1 : 1 * xc ^ (d + 1) ≤ (rest.length + 1) * xc ^ (d + 1) :=
        Nat.mul_le_mul_right _ (by omega)
      simp only [List.length_cons] at h0
      omega)
    cases ht : tree_init mc xc s layers oracle pos with
    | none => rw [ht] at htree; cases htree
    | some tout =>
      obtain ⟨tt, layers2, pos2⟩ := tout
      dsimp only
      obtain ⟨TF, hlen2, hpools, hcnt, hdep0⟩ := tree_init_out ht
      have hrest := ih layers2 oracle pos2 (fun d hd => by
        have hd' : d < layers.length := by omega
        have hcard := congrArg Multiset.card (hpools d)
        rw [Multiset.card_add] at hcard
        simp only [Multiset.coe_card, List.length_map] at hcard
        have hC := hcnt (d + 1)
        have h0 := hpool d hd'
        simp only [List.length_cons] at h0
        have hmul : (rest.length + 1) * xc ^ (d + 1)
            = rest.length * xc ^ (d + 1) + xc ^ (d + 1) := by ring
        rw [hmul] at h0
        generalize hA : rest.length * xc ^ (d + 1) = A at h0 ⊢
        generalize hX : xc ^ (d + 1) = X at h0 hC
        omega)
      cases hq : question_init mc xc rest layers2 oracle pos2 with
      | none => rw [hq] at hrest; cases hrest
      | some qout => rfl

lemma question_init_facts (mc xc : Nat) :
    ∀ (starts : List Point) (layers : List (List Point)) (oracle : Nat → Nat)
      (pos : Nat) (ts : List TreeData) (layers' : List (List Point)) (pos' : Nat),
      question_init mc xc starts layers oracle pos = some (ts, layers', pos') →
      layers'.length = layers.length ∧
      (∀ t ∈ ts, ∃ s, TreeFacts mc xc layers.length s t) ∧
      (∀ d, (layers.getD d [] : Multiset Point)
          = (layers'.getD d [] : Multiset Point)
            + ↑((ts.flatMap (fun t => nodes_at_depth t.tree (d + 1))).map node_pos)) ∧
      (ts.flatMap (fun t => nodes_at_depth t.tree 0)).map node_pos = starts := by
  intro starts
  induction starts with
  | nil =>
    intro layers oracle pos ts layers' pos' h
    rw [question_init] at h
    have heq := Option.some.inj h
    have h1 : ts = [] := (congrArg (fun q : List TreeData × List (List Point) × Nat => q.1) heq).symm
    have h2 : layers' = layers := by
      have := congrArg (fun q : List TreeData × List (List Point) × Nat => q.2.1) heq
      exact this.symm
    subst h1
    subst h2
    refine ⟨rfl, ?_, ?_, rfl⟩
    · intro t ht; cases ht
    · intro d; simp
  | cons s rest ih =>
    intro layers oracle pos ts layers' pos' h
    rw [question_init] at h
    cases ht : tree_init mc xc s layers oracle pos with
    | none => rw [ht] at h; cases h
    | some tout =>
      rw [ht] at h
      obtain ⟨tt, layers2, pos2⟩ := tout
      dsimp only at h
      cases hq : question_init mc xc rest layers2 oracle pos2 with
      | none => rw [hq] at h; cases h
      | some qout =>
        rw [hq] at h
        obtain ⟨ts1, l3, p3⟩ := qout
        dsimp only at h
        have heq := Option.some.inj h
        have h1 : ts = tt :: ts1 :=
          (congrArg (fun q : List TreeData × List (List Point) × Nat => q.1) heq).symm
        have h2 : layers' = l3 := by
          have := congrArg (fun q : List TreeData × List (List Point) × Nat => q.2.1) heq
          exact this.symm
        subst h1
        subst h2
        obtain ⟨TF, hlen2, hpools, hcnt, hdep0⟩ := tree_init_out ht
        obtain ⟨ihlen, ihTF, ihpools, ihdep0⟩ :=
          ih layers2 oracle pos2 ts1 _ p3 hq
        refine ⟨by omega, ?_, ?_, ?_⟩
        · intro t htm
          rcases List.mem_cons.mp htm with rfl | htm'
          · exact ⟨s, TF⟩
          · obtain ⟨s0, TF0⟩ := ihTF t htm'
            rw [hlen2] at TF0
            exact ⟨s0, TF0⟩
        · intro d
          rw [List.flatMap_cons, List.map_append, ← Multiset.coe_add,
            hpools d, ihpools d]
          abel
        · rw [List.flatMap_cons, List.map_append, hdep0, ihdep0]
          rfl

/-! ### Translation-pass and serialization lemmas -/

lemma translate_ids (t : TreeData) (num : Int) :
    (t.translate num).tree.map Node.id = t.tree.map (fun r => r.id + num) := by
  rw [translate_tree_eq, List.map_map]
  rfl

lemma translate_pass_mem : ∀ (ts : List TreeData) (c : Nat),
    ∀ t' ∈ translate_pass ts c, ∃ t ∈ ts, ∃ num : Nat, t' = t.translate (num : Int) := by
  intro ts
  induction ts with
  | nil => intro c t' ht'; cases ht'
  | cons t rest ih =>
    intro c t' ht'
    rw [translate_pass] at ht'
    rcases List.mem_cons.mp ht' with rfl | hmem
    · exact ⟨t, List.mem_cons_self _ _, c, rfl⟩
    · obtain ⟨t0, h0, num, hnum⟩ := ih _ t' hmem
      exact ⟨t0, List.mem_cons_of_mem _ h0, num, hnum⟩

lemma translate_pass_ids : ∀ (ts : List TreeData) (c : Nat),
    (∀ t ∈ ts, t.tree.map Node.id
        = (List.range t.tree.length).map (fun (i : Nat) => (i : Int))) →
    ((translate_pass ts c).flatMap TreeData.tree).map Node.id
      = (List.range (((translate_pass ts c).flatMap TreeData.tree).length)).map
          (fun (i : Nat) => ((c : Int) + (i : Int))) := by
  intro ts
  induction ts with
  | nil => intro c _; simp [translate_pass]
  | cons t rest ih =>
    intro c hids
    rw [translate_pass]
    have hnn : (t.translate (c : Int)).num_nodes = t.tree.length := by
      rw [translate_num_nodes]
      rfl
    have hlen1 : (t.translate (c : Int)).tree.length = t.tree.length := by
      rw [translate_tree_eq]
      simp
    have hids1 : (t.translate (c : Int)).tree.map Node.id
        = (List.range t.tree.length).map
            (fun (i : Nat) => ((c : Int) + (i : Int))) := by
      rw [translate_ids,
        (show (fun r : Node => r.id + (c : Int))
            = (fun x : Int => x + (c : Int)) ∘ Node.id from rfl),
        ← List.map_map, hids t (List.mem_cons_self _ _), List.map_map]
      apply List.map_congr_left
      intro i _
      simp only [Function.comp_apply]
      ring
    have ihr := ih (c + (t.translate (c : Int)).num_nodes) (fun t0 h0 =>
      hids t0 (List.mem_cons_of_mem _ h0))
    rw [List.flatMap_cons, List.map_append, hids1, ihr, List.length_append,
      hlen1]
    rw [hnn]
    rw [range_map_add c t.tree.length _]

lemma tree_rows_ids (t : TreeData) :
    (tree_rows t).map Node.id = t.tree.map Node.id := by
  unfold tree_rows
  rw [List.map_map]
  rfl

lemma flatMap_rows_ids : ∀ ts : List TreeData,
    (ts.flatMap tree_rows).map Node.id = (ts.flatMap TreeData.tree).map Node.id := by
  intro ts
  induction ts with
  | nil => rfl
  | cons t rest ih =>
    rw [List.flatMap_cons, List.flatMap_cons, List.map_append, List.map_append,
      tree_rows_ids, ih]

lemma question_str_out {trees : List TreeData} {oracle : Nat → Nat} {pos : Nat}
    {out : StrOut} {ts2 : List TreeData} {pos2 : Nat}
    (h : question_str trees oracle pos = some (out, ts2, pos2)) :
    out.rows = (translate_pass trees 0).flatMap tree_rows ∧
    ts2 = translate_pass trees 0 := by
  unfold question_str at h
  dsimp only at h
  cases h1 : list_choice (translate_pass trees 0) oracle pos with
  | none => rw [h1] at h; cases h
  | some tp =>
    rw [h1] at h
    dsimp only at h
    cases h2 : get_random_leaf tp.1 oracle tp.2 with
    | none => rw [h2] at h; cases h
    | some lp =>
      rw [h2] at h
      dsimp only at h
      have heq := Option.some.inj h
      constructor
      · have := congrArg (fun q : StrOut × List TreeData × Nat => q.1.rows) heq
        exact this.symm
      · have := congrArg (fun q : StrOut × List TreeData × Nat => q.2.1) heq
        exact this.symm

lemma nodes_at_depth_flatMap (ts : List TreeData) (e : Nat) :
    nodes_at_depth (forest_nodes ts) e
      = ts.flatMap (fun t => nodes_at_depth t.tree e) := by
  unfold forest_nodes nodes_at_depth
  rw [List.filter_flatMap]

/-! ### Exact tree size under maximal branching draws -/

lemma child_loop_exact (S : Nat) (oracle : Nat → Nat) (layer : Nat)
    (rec : Point → Int → Nat → GenState → Option GenState)
    (hrec : ∀ node parent st st', st.oracle = oracle →
        rec node parent (layer + 1) st = some st' →
        st'.tree.length = st.tree.length + S ∧ st'.oracle = oracle) :
    ∀ k pid st st', st.oracle = oracle →
      child_loop rec k pid layer st = some st' →
      st'.tree.length = st.tree.length + k * S ∧ st'.oracle = oracle := by
  intro k
  induction k with
  | zero =>
    intro pid st st' ho h
    rw [child_loop] at h
    obtain rfl := Option.some.inj h
    simpa using ho
  | succ k ih =>
    intro pid st st' ho h
    rw [child_loop] at h
    cases hdp : draw_point st layer with
    | none => rw [hdp] at h; cases h
    | some sp =>
      rw [hdp] at h
      obtain ⟨st2, p⟩ := sp
      dsimp only at h
      obtain ⟨e_tree, e_ct, e_orac, _, _, _, _⟩ := draw_point_out hdp
      cases hrc : rec p pid (layer + 1) st2 with
      | none => rw [hrc] at h; cases h
      | some st3 =>
        rw [hrc] at h
        dsimp only at h
        obtain ⟨h3len, h3o⟩ := hrec p pid st2 st3 (by rw [e_orac, ho]) hrc
        obtain ⟨hklen, hko⟩ := ih pid st3 st' h3o h
        refine ⟨?_, hko⟩
        rw [hklen, h3len, e_tree]
        ring

lemma generate_exact (mc xc nl : Nat) (oracle : Nat → Nat)
    (hbr : ∀ n, oracle n % (xc - mc + 1) = xc - mc) (hmx : mc ≤ xc) :
    ∀ fuel node parent layer st st', st.oracle = oracle →
      generate mc xc nl fuel node parent layer st = some st' →
      st'.tree.length = st.tree.length + sumPow xc (nl - layer + 1) ∧
      st'.oracle = oracle := by
  intro fuel
  induction fuel with
  | zero => intro node parent layer st st' _ h; rw [generate] at h; cases h
  | succ fuel ih =>
    intro node parent layer st st' ho h
    rw [generate] at h
    unfold gen_step at h
    dsimp only at h
    by_cases hstop : nl ≤ layer
    · rw [if_pos hstop] at h
      obtain rfl := Option.some.inj h
      refine ⟨?_, ho⟩
      show (st.tree ++ [mkNode st.ct node parent layer]).length = _
      rw [(show nl - layer = 0 from by omega)]
      simp [sumPow]
    · rw [if_neg hstop] at h
      cases hdb : draw_branch mc xc (add_node st node parent layer).1 with
      | none => rw [hdb] at h; cases h
      | some b =>
        rw [hdb] at h
        dsimp only at h
        obtain ⟨dbt, _, _, dbo, _, _⟩ := draw_branch_out hdb
        have hb2 : b.2 = xc := by
          unfold draw_branch at hdb
          rw [if_neg (by omega)] at hdb
          have hsnd := congrArg Prod.snd (Option.some.inj hdb)
          dsimp only at hsnd
          rw [← hsnd]
          show mc + (add_node st node parent layer).1.oracle
              (add_node st node parent layer).1.pos % (xc - mc + 1) = xc
          rw [(show (add_node st node parent layer).1.oracle = st.oracle from rfl),
            ho, hbr]
          omega
        have hbo : b.1.oracle = oracle := by
          rw [dbo, (show (add_node st node parent layer).1.oracle = st.oracle from rfl),
            ho]
        obtain ⟨hl, ho'⟩ := child_loop_exact (sumPow xc (nl - layer)) oracle layer _
          (fun n pr s s' hso hh => by
            have hres := ih n pr (layer + 1) s s' hso hh
            rwa [(show nl - (layer + 1) + 1 = nl - layer from by omega)] at hres)
          b.2 _ b.1 st' hbo h
        refine ⟨?_, ho'⟩
        rw [hl, hb2,
          (show b.1.tree = st.tree ++ [mkNode st.ct node parent layer] from by
            rw [dbt]; rfl)]
        simp only [List.length_append, List.length_cons, List.length_nil]
        rw [(show nl - layer + 1 = (nl - layer) + 1 from rfl), sumPow]
        omega

lemma question_init_exact (mc xc : Nat) (oracle : Nat → Nat)
    (hbr : ∀ n, oracle n % (xc - mc + 1) = xc - mc) (hmx : mc ≤ xc) :
    ∀ (starts : List Point) (layers : List (List Point)) (pos : Nat)
      (ts : List TreeData) (layers' : List (List Point)) (pos' : Nat),
      question_init mc xc starts layers oracle pos = some (ts, layers', pos') →
      ∀ t ∈ ts, t.tree.length = sumPow xc (layers.length + 1) := by
  intro starts
  induction starts with
  | nil =>
    intro layers pos ts layers' pos' h t ht
    rw [question_init] at h
    have h1 : ts = [] :=
      (congrArg (fun q : List TreeData × List (List Point) × Nat => q.1)
        (Option.some.inj h)).symm
    rw [h1] at ht
    cases ht
  | cons s rest ih =>
    intro layers pos ts layers' pos' h t ht
    rw [question_init] at h
    cases htr : tree_init mc xc s layers oracle pos with
    | none => rw [htr] at h; cases h
    | some tout =>
      rw [htr] at h
      obtain ⟨tt, layers2, pos2⟩ := tout
      dsimp only at h
      cases hq : question_init mc xc rest layers2 oracle pos2 with
      | none => rw [hq] at h; cases h
      | some qout =>
        rw [hq] at h
        obtain ⟨ts1, l3, p3⟩ := qout
        dsimp only at h
        have h1 : ts = tt :: ts1 :=
          (congrArg (fun q : List TreeData × List (List Point) × Nat => q.1)
            (Option.some.inj h)).symm
        rw [h1] at ht
        obtain ⟨TF0, hlen2, _, _, _⟩ := tree_init_out htr
        rcases List.mem_cons.mp ht with rfl | ht'
        · -- the head tree: unfold tree_init and use generate_exact
          unfold tree_init at htr
          cases hg : generate mc xc layers.length (layers.length + 1) s 0 0
              ⟨[], 0, layers, oracle, pos⟩ with
          | none => rw [hg] at htr; cases htr
          | some st' =>
            rw [hg] at htr
            obtain ⟨hlen, _⟩ := generate_exact mc xc layers.length oracle hbr hmx
              (layers.length + 1) s 0 0 _ st' rfl hg
            have httt : t.tree = st'.tree :=
              congrArg TreeData.tree
                ((congrArg (fun q : TreeData × List (List Point) × Nat => q.1)
                  (Option.some.inj htr)).symm)
            rw [httt, hlen]
            simp
        · have := ih layers2 pos2 ts1 l3 p3 hq t ht'
          rwa [hlen2] at this

/-! ### Success of serialization -/

lemma translate_pass_length : ∀ (ts : List TreeData) (c : Nat),
    (translate_pass ts c).length = ts.length := by
  intro ts
  induction ts with
  | nil => intro c; rfl
  | cons t rest ih => intro c; rw [translate_pass]; simp [ih]

lemma run_program_isSome (nt nl mc xc : Nat) (oracle : Nat → Nat)
    (hmx : mc ≤ xc) : (run_program nt nl mc xc oracle).isSome := by
  unfold run_program
  apply question_init_isSome mc xc hmx
  intro d hd
  rw [generate_layers_length] at hd
  have hsize := generate_layers_size nt nl xc d hd
  have hstart : (generate_layers nt nl xc).1.length = nt := by
    show (start_nodes nt).length = nt
    unfold start_nodes
    simp
  rw [hstart]
  exact hsize

lemma list_choice_isSome {α : Type} [Inhabited α] (l : List α)
    (oracle : Nat → Nat) (pos : Nat) (h : l ≠ []) :
    ∃ a pos2, list_choice l oracle pos = some (a, pos2) ∧ a ∈ l := by
  unfold list_choice
  rw [if_neg (by simpa using (List.length_pos.mpr h).ne')]
  refine ⟨_, pos + 1, rfl, ?_⟩
  have hlt : oracle pos % l.length < l.length :=
    Nat.mod_lt _ (List.length_pos.mpr h)
  rw [List.getD_eq_getElem _ _ hlt]
  exact List.getElem_mem _

lemma question_str_isSome (trees : List TreeData) (oracle : Nat → Nat)
    (pos : Nat) (hne : trees ≠ [])
    (hleaf : ∀ t ∈ trees, ∃ r ∈ t.tree, r.y = -(t.num_layers : Int)) :
    (question_str trees oracle pos).isSome := by
  unfold question_str
  dsimp only
  have hne2 : translate_pass trees 0 ≠ [] := by
    intro h0
    have hl := congrArg List.length h0
    rw [translate_pass_length] at hl
    exact hne (List.length_eq_zero.mp hl)
  obtain ⟨tp1, pos1, hch, hmem⟩ :=
    list_choice_isSome (translate_pass trees 0) oracle pos hne2
  rw [hch]
  dsimp only
  obtain ⟨t0, ht0, num, hnum⟩ := translate_pass_mem trees 0 tp1 hmem
  obtain ⟨r, hr, hry⟩ := hleaf t0 ht0
  have hleafmem : translate_node (num : Int) r
      ∈ tp1.tree.filter (fun r' => r'.y == -(tp1.num_layers : Int)) := by
    rw [hnum, translate_tree_eq]
    apply List.mem_filter.mpr
    refine ⟨List.mem_map_of_mem _ hr, ?_⟩
    have hnl : (t0.translate (num : Int)).num_layers = t0.num_layers :=
      translate_num_layers t0 _
    rw [hnl]
    have hy : (translate_node (num : Int) r).y = r.y := rfl
    rw [hy, hry]
    exact beq_self_eq_true _
  unfold get_random_leaf
  obtain ⟨lf, pos2, hlf, _⟩ := list_choice_isSome _ oracle pos1
    (List.ne_nil_of_mem hleafmem)
  rw [hlf]
  rfl

lemma run_ts_ne_nil {nt nl mc xc : Nat} {oracle : Nat → Nat}
    {ts : List TreeData} {layers' : List (List Point)} {pos' : Nat}
    (h : run_program nt nl mc xc oracle = some (ts, layers', pos'))
    (hnt : 1 ≤ nt) : ts ≠ [] := by
  unfold run_program at h
  obtain ⟨_, _, _, hdep0⟩ :=
    question_init_facts mc xc _ _ oracle 0 ts layers' pos' h
  intro h0
  rw [h0] at hdep0
  have hlen := congrArg List.length hdep0
  simp only [List.flatMap_nil, List.map_nil, List.length_nil] at hlen
  have h2 : ((generate_layers nt nl xc).1).length = nt := by
    show (start_nodes nt).length = nt
    unfold start_nodes
    simp
  omega

/-! ### The claims -/

/-- C1: for every configuration with `1 ≤ NUM_TREES ≤ 9`, `NUM_LAYERS ≥ 1`
and `1 ≤ MIN_CHILD ≤ MAX_CHILD`, and every sequence of random branching
and point choices (`oracle`), growing the trees sequentially over the
layers produced by `generate_layers` succeeds.  In this model a draw from
an empty layer is the only way the pipeline can return `none` under these
hypotheses (`randint` cannot fail since `MIN_CHILD ≤ MAX_CHILD`, and the
fuel exceeds the recursion depth), so `isSome` says exactly that every
point draw is made from a non-empty layer: pool exhaustion never occurs. -/
theorem C1_no_pool_exhaustion (nt nl mc xc : Nat) (oracle : Nat → Nat)
    (h1 : 1 ≤ nt) (h2 : nt ≤ 9) (h3 : 1 ≤ nl) (h4 : 1 ≤ mc) (h5 : mc ≤ xc) :
    (run_program nt nl mc xc oracle).isSome :=
  run_program_isSome nt nl mc xc oracle h5

/-- Witness for C1 at the repository's default configuration
`NUM_TREES = 3`, `NUM_LAYERS = 3`, `MIN_CHILD = 1`, `MAX_CHILD = 2`. -/
theorem C1_witness : (run_program 3 3 1 2 (fun _ => 0)).isSome :=
  C1_no_pool_exhaustion 3 3 1 2 (fun _ => 0)
    (by decide) (by decide) (by decide) (by decide) (by decide)

/-- C2: for every configuration with `1 ≤ NUM_TREES ≤ 9`, `NUM_LAYERS ≥ 1`
and `1 ≤ MIN_CHILD ≤ MAX_CHILD`, `generate_layers` returns exactly
`NUM_LAYERS` layers and the layer at depth index `d` contains at least
`NUM_TREES * MAX_CHILD ^ (d + 1)` points. -/
theorem C2_layer_sizing (nt nl mc xc : Nat)
    (h1 : 1 ≤ nt) (h2 : nt ≤ 9) (h3 : 1 ≤ nl) (h4 : 1 ≤ mc) (h5 : mc ≤ xc) :
    (generate_layers nt nl xc).2.length = nl ∧
    ∀ d, d < nl →
      nt * xc ^ (d + 1) ≤ ((generate_layers nt nl xc).2.getD d []).length :=
  ⟨generate_layers_length nt nl xc,
   fun d hd => generate_layers_size nt nl xc d hd⟩

/-- Witness for C2 at `NUM_TREES = 3`, `NUM_LAYERS = 3`, `MIN_CHILD = 1`,
`MAX_CHILD = 2`. -/
theorem C2_witness :
    (generate_layers 3 3 2).2.length = 3 ∧
    ∀ d, d < 3 →
      3 * 2 ^ (d + 1) ≤ ((generate_layers 3 3 2).2.getD d []).length :=
  C2_layer_sizing 3 3 1 2 (by decide) (by decide) (by decide) (by decide)
    (by decide)

/-- C3: in every generated forest, after the per-tree translation pass
(`translate_pass`, the first loop of `Question.__str__`, which offsets
tree `k`'s IDs by the total node count of trees `0..k-1`), the IDs of all
node records across all trees are pairwise distinct. -/
theorem C3_global_id_uniqueness (nt nl mc xc : Nat) (oracle : Nat → Nat)
    (ts : List TreeData) (layers' : List (List Point)) (pos' : Nat)
    (h : run_program nt nl mc xc oracle = some (ts, layers', pos')) :
    (((translate_pass ts 0).flatMap TreeData.tree).map Node.id).Nodup := by
  unfold run_program at h
  obtain ⟨_, hTF, _, _⟩ :=
    question_init_facts mc xc _ _ oracle 0 ts layers' pos' h
  have hids : ∀ t ∈ ts, t.tree.map Node.id
      = (List.range t.tree.length).map (fun (i : Nat) => (i : Int)) := by
    intro t ht
    obtain ⟨s, TF⟩ := hTF t ht
    exact TF.ids
  rw [translate_pass_ids ts 0 hids]
  refine List.Nodup.map ?_ (List.nodup_range _)
  intro a b hab
  simp only at hab
  omega

/-- Witness for C3: a concrete run in which the translated forest exists
and its IDs are pairwise distinct. -/
theorem C3_witness :
    ∃ ts layers' pos',
      run_program 1 1 1 1 (fun _ => 0) = some (ts, layers', pos') ∧
      (((translate_pass ts 0).flatMap TreeData.tree).map Node.id).Nodup := by
  obtain ⟨res, hres⟩ := Option.isSome_iff_exists.mp
    (run_program_isSome 1 1 1 1 (fun _ => 0) le_rfl)
  obtain ⟨ts, layers', pos'⟩ := res
  exact ⟨ts, layers', pos', hres,
    C3_global_id_uniqueness 1 1 1 1 (fun _ => 0) ts layers' pos' hres⟩

/-- C4: in every generated forest, every non-root node's parent field is
the ID of a node of the same tree whose depth is exactly one less (stored
depth coordinate one greater), and every depth-0 (root) node's parent
field equals its own ID; both before and after the translation pass. -/
theorem C4_parent_linkage (nt nl mc xc : Nat) (oracle : Nat → Nat)
    (ts : List TreeData) (layers' : List (List Point)) (pos' : Nat)
    (h : run_program nt nl mc xc oracle = some (ts, layers', pos')) :
    (∀ t ∈ ts, ∀ r ∈ t.tree,
        (r.y = 0 → r.parent = r.id) ∧
        (r.y ≠ 0 → ∃ q ∈ t.tree, q.id = r.parent ∧ q.y = r.y + 1)) ∧
    (∀ t ∈ translate_pass ts 0, ∀ r ∈ t.tree,
        (r.y = 0 → r.parent = r.id) ∧
        (r.y ≠ 0 → ∃ q ∈ t.tree, q.id = r.parent ∧ q.y = r.y + 1)) := by
  unfold run_program at h
  obtain ⟨_, hTF, _, _⟩ :=
    question_init_facts mc xc _ _ oracle 0 ts layers' pos' h
  have hbase : ∀ t ∈ ts, ∀ r ∈ t.tree,
      (r.y = 0 → r.parent = r.id) ∧
      (r.y ≠ 0 → ∃ q ∈ t.tree, q.id = r.parent ∧ q.y = r.y + 1) := by
    intro t ht r hr
    obtain ⟨s, TF⟩ := hTF t ht
    refine ⟨?_, TF.parents r hr⟩
    intro hy0
    obtain ⟨rest, htr, hyrest⟩ := TF.shape
    rw [htr] at hr
    rcases List.mem_cons.mp hr with rfl | hr'
    · show (0 : Int) = ((0 : Nat) : Int)
      simp
    · exact absurd hy0 (by have := hyrest r hr'; omega)
  refine ⟨hbase, ?_⟩
  intro t' ht' r' hr'
  obtain ⟨t, ht, num, hnum⟩ := translate_pass_mem ts 0 t' ht'
  rw [hnum, translate_tree_eq] at hr'
  obtain ⟨r, hr, rfl⟩ := List.mem_map.mp hr'
  obtain ⟨hroot, hlink⟩ := hbase t ht r hr
  constructor
  · intro hy0
    show r.parent + (num : Int) = r.id + (num : Int)
    rw [hroot hy0]
  · intro hy0
    obtain ⟨q, hq, hq1, hq2⟩ := hlink hy0
    refine ⟨translate_node (num : Int) q, ?_, ?_, hq2⟩
    · rw [hnum, translate_tree_eq]
      exact List.mem_map_of_mem _ hq
    · show q.id + (num : Int) = r.parent + (num : Int)
      rw [hq1]

/-- Witness for C4. -/
theorem C4_witness :
    ∃ ts layers' pos',
      run_program 1 1 1 1 (fun _ => 0) = some (ts, layers', pos') ∧
      (∀ t ∈ ts, ∀ r ∈ t.tree,
          (r.y = 0 → r.parent = r.id) ∧
          (r.y ≠ 0 → ∃ q ∈ t.tree, q.id = r.parent ∧ q.y = r.y + 1)) := by
  obtain ⟨res, hres⟩ := Option.isSome_iff_exists.mp
    (run_program_isSome 1 1 1 1 (fun _ => 0) le_rfl)
  obtain ⟨ts, layers', pos'⟩ := res
  exact ⟨ts, layers', pos', hres,
    (C4_parent_linkage 1 1 1 1 (fun _ => 0) ts layers' pos' hres).1⟩

/-- C6: for `MIN_CHILD ≥ 1`, in every generated tree no node lies deeper
than `NUM_LAYERS` (stored depth coordinate below `-NUM_LAYERS`), and every
leaf — a node with no children, where node `c` is a child of `r` iff `c`
is a non-root node whose parent field is `r`'s ID — lies at depth exactly
`NUM_LAYERS`. -/
theorem C6_leaf_depth (nt nl mc xc : Nat) (oracle : Nat → Nat)
    (hmc : 1 ≤ mc)
    (ts : List TreeData) (layers' : List (List Point)) (pos' : Nat)
    (h : run_program nt nl mc xc oracle = some (ts, layers', pos')) :
    ∀ t ∈ ts,
      (∀ r ∈ t.tree, -(nl : Int) ≤ r.y) ∧
      (∀ r ∈ t.tree,
        (¬∃ c ∈ t.tree, c.parent = r.id ∧ c.y ≠ 0) → r.y = -(nl : Int)) := by
  unfold run_program at h
  obtain ⟨_, hTF, _, _⟩ :=
    question_init_facts mc xc _ _ oracle 0 ts layers' pos' h
  intro t ht
  obtain ⟨s, TF⟩ := hTF t ht
  rw [generate_layers_length] at TF
  refine ⟨fun r hr => (TF.ybound r hr).1, ?_⟩
  intro r hr hnc
  by_contra hne
  have hyb := TF.ybound r hr
  have hlt : -(nl : Int) < r.y := lt_of_le_of_ne hyb.1 (fun heq => hne heq.symm)
  obtain ⟨c, hc, hc1, hc2⟩ := TF.internal_child r hr hlt hmc
  apply hnc
  refine ⟨c, hc, hc1, ?_⟩
  have hy2 := hyb.2
  omega

/-- Witness for C6. -/
theorem C6_witness :
    ∃ ts layers' pos',
      run_program 1 1 1 1 (fun _ => 0) = some (ts, layers', pos') ∧
      ∀ t ∈ ts,
        (∀ r ∈ t.tree, -((1 : Nat) : Int) ≤ r.y) ∧
        (∀ r ∈ t.tree,
          (¬∃ c ∈ t.tree, c.parent = r.id ∧ c.y ≠ 0) →
            r.y = -((1 : Nat) : Int)) := by
  obtain ⟨res, hres⟩ := Option.isSome_iff_exists.mp
    (run_program_isSome 1 1 1 1 (fun _ => 0) le_rfl)
  obtain ⟨ts, layers', pos'⟩ := res
  exact ⟨ts, layers', pos', hres,
    C6_leaf_depth 1 1 1 1 (fun _ => 0) le_rfl ts layers' pos' hres⟩

/-- C7: in every generated forest, no two nodes at the same depth share an
`(x, z)` pair: at every depth `e`, the list of `(x, z)` pairs over the
whole forest is duplicate-free, equivalently the number of distinct pairs
equals the number of nodes at that depth. -/
theorem C7_distinct_positions (nt nl mc xc : Nat) (oracle : Nat → Nat)
    (ts : List TreeData) (layers' : List (List Point)) (pos' : Nat)
    (h : run_program nt nl mc xc oracle = some (ts, layers', pos')) :
    ∀ e : Nat,
      ((nodes_at_depth (forest_nodes ts) e).map node_pos).Nodup ∧
      ((nodes_at_depth (forest_nodes ts) e).map node_pos).dedup.length
        = (nodes_at_depth (forest_nodes ts) e).length := by
  unfold run_program at h
  obtain ⟨_, hTF, hpools, hdep0⟩ :=
    question_init_facts mc xc _ _ oracle 0 ts layers' pos' h
  have key : ∀ e, ((nodes_at_depth (forest_nodes ts) e).map node_pos).Nodup := by
    intro e
    rw [nodes_at_depth_flatMap]
    cases e with
    | zero =>
      rw [hdep0]
      exact start_nodes_nodup nt
    | succ d =>
      by_cases hd : d < (generate_layers nt nl xc).2.length
      · have hP := hpools d
        have hnd : ((generate_layers nt nl xc).2.getD d []).Nodup :=
          generate_layers_mem_nodup nt nl xc d
        have hmle : (↑((ts.flatMap
                (fun t => nodes_at_depth t.tree (d + 1))).map node_pos)
              : Multiset Point)
            ≤ ↑((generate_layers nt nl xc).2.getD d []) := by
          rw [hP]
          exact Multiset.le_add_left _ _
        have hmnd := Multiset.nodup_of_le hmle (Multiset.coe_nodup.mpr hnd)
        exact Multiset.coe_nodup.mp hmnd
      · have hnil : ts.flatMap (fun t => nodes_at_depth t.tree (d + 1)) = [] := by
          rw [List.flatMap_eq_nil_iff]
          intro t ht
          obtain ⟨s, TF⟩ := hTF t ht
          apply nodes_at_depth_eq_nil
          intro r hr
          have hyb := (TF.ybound r hr).1
          omega
        rw [hnil]
        simp
  intro e
  refine ⟨key e, ?_⟩
  rw [List.dedup_eq_self.mpr (key e)]
  simp

/-- Witness for C7. -/
theorem C7_witness :
    ∃ ts layers' pos',
      run_program 2 1 1 1 (fun _ => 0) = some (ts, layers', pos') ∧
      ∀ e : Nat,
        ((nodes_at_depth (forest_nodes ts) e).map node_pos).Nodup ∧
        ((nodes_at_depth (forest_nodes ts) e).map node_pos).dedup.length
          = (nodes_at_depth (forest_nodes ts) e).length := by
  obtain ⟨res, hres⟩ := Option.isSome_iff_exists.mp
    (run_program_isSome 2 1 1 1 (fun _ => 0) le_rfl)
  obtain ⟨ts, layers', pos'⟩ := res
  exact ⟨ts, layers', pos', hres,
    C7_distinct_positions 2 1 1 1 (fun _ => 0) ts layers' pos' hres⟩

/-- C8 as stated is false on the code: with `NUM_TREES = 2`,
`NUM_LAYERS = 2`, `MIN_CHILD = 1`, `MAX_CHILD = 2` and the oracle that
always returns 1, every branching draw equals `1 + 1 % 2 = 2`, so every
tree of the (always successful) run has exactly
`1 + 2 + 4 = sumPow 2 3 = 7` nodes — more than the claimed maximum of 6.
This proves the negation of the claim at that explicit input. -/
theorem C8_counterexample :
    ¬(∀ (ts : List TreeData) (layers' : List (List Point)) (pos' : Nat),
        run_program 2 2 1 2 (fun _ => 1) = some (ts, layers', pos') →
        ∀ t ∈ ts, 2 ≤ t.num_nodes ∧ t.num_nodes ≤ 6) := by
  intro hcl
  obtain ⟨res, hres⟩ := Option.isSome_iff_exists.mp
    (run_program_isSome 2 2 1 2 (fun _ => 1) (by decide))
  obtain ⟨ts, layers', pos'⟩ := res
  have hne : ts ≠ [] := run_ts_ne_nil hres (by decide)
  have hres' := hres
  unfold run_program at hres'
  have hex := question_init_exact 1 2 (fun _ => 1) (fun n => rfl) (by decide)
    _ _ _ ts layers' pos' hres'
  obtain ⟨t0, ht0⟩ := List.exists_mem_of_ne_nil ts hne
  have h7 := hex t0 ht0
  rw [generate_layers_length] at h7
  have h6 := (hcl ts layers' pos' hres t0 ht0).2
  have hsp : sumPow 2 (2 + 1) = 7 := rfl
  unfold TreeData.num_nodes at h6
  omega

/-- C8 (amended): with `NUM_TREES = 2`, `NUM_LAYERS = 2`, `MIN_CHILD = 1`,
`MAX_CHILD = 2`, every possible run produces between 3 and 7 nodes in each
tree (1 root + 1-2 depth-1 nodes + 1-2 children per depth-1 node). -/
theorem C8_tree_size_bounds (oracle : Nat → Nat)
    (ts : List TreeData) (layers' : List (List Point)) (pos' : Nat)
    (h : run_program 2 2 1 2 oracle = some (ts, layers', pos')) :
    ∀ t ∈ ts, 3 ≤ t.num_nodes ∧ t.num_nodes ≤ 7 := by
  unfold run_program at h
  obtain ⟨_, hTF, _, _⟩ :=
    question_init_facts 1 2 _ _ oracle 0 ts layers' pos' h
  intro t ht
  obtain ⟨s, TF⟩ := hTF t ht
  rw [generate_layers_length] at TF
  have h1 := TF.size_lb
  have h2 := TF.size_ub
  have e1 : sumPow 1 (2 + 1) = 3 := rfl
  have e2 : sumPow 2 (2 + 1) = 7 := rfl
  unfold TreeData.num_nodes
  omega

/-- Witness for the amended C8. -/
theorem C8_witness :
    ∃ ts layers' pos',
      run_program 2 2 1 2 (fun _ => 0) = some (ts, layers', pos') ∧
      ∀ t ∈ ts, 3 ≤ t.num_nodes ∧ t.num_nodes ≤ 7 := by
  obtain ⟨res, hres⟩ := Option.isSome_iff_exists.mp
    (run_program_isSome 2 2 1 2 (fun _ => 0) (by decide))
  obtain ⟨ts, layers', pos'⟩ := res
  exact ⟨ts, layers', pos', hres,
    C8_tree_size_bounds (fun _ => 0) ts layers' pos' hres⟩

/-- C9: for every tree and every integer `num`, `Tree.translate num`
rebuilds each row adding `num` to exactly the `ID` and `parent` fields
(`translate_node`), leaving `x`, the depth coordinate `y` and `z`
unchanged, and in particular preserves the difference `parent - ID` of
every row, hence every intra-tree parent/child link. -/
theorem C9_translate_frame (t : TreeData) (num : Int) :
    (t.translate num).tree = t.tree.map (translate_node num) ∧
    ∀ i : Nat, ((t.translate num).tree.getD i default).parent
          - ((t.translate num).tree.getD i default).id
        = (t.tree.getD i default).parent - (t.tree.getD i default).id := by
  refine ⟨translate_tree_eq t num, ?_⟩
  intro i
  rw [translate_tree_eq]
  by_cases hi : i < t.tree.length
  · rw [List.getD_eq_getElem _ _ (by simpa using hi),
      List.getD_eq_getElem _ _ hi, List.getElem_map]
    show (t.tree[i].parent + num) - (t.tree[i].id + num) = _
    ring
  · rw [List.getD_eq_default _ _ (by simpa using Nat.le_of_not_lt hi),
      List.getD_eq_default _ _ (Nat.le_of_not_lt hi)]

/-- C10: on the first serialization after generation, the node rows of
`Question.__str__` carry consecutive IDs `0, 1, ..., N-1` in output order:
the k-th row's ID field equals k. -/
theorem C10_consecutive_row_ids (nt nl mc xc : Nat) (oracle : Nat → Nat)
    (ts : List TreeData) (layers' : List (List Point)) (pos' : Nat)
    (h : run_program nt nl mc xc oracle = some (ts, layers', pos'))
    (out : StrOut) (ts2 : List TreeData) (pos2 : Nat)
    (hs : question_str ts oracle pos' = some (out, ts2, pos2)) :
    out.rows.map Node.id
      = (List.range out.rows.length).map (fun (i : Nat) => (i : Int)) := by
  obtain ⟨hrows, _⟩ := question_str_out hs
  unfold run_program at h
  obtain ⟨_, hTF, _, _⟩ :=
    question_init_facts mc xc _ _ oracle 0 ts layers' pos' h
  have hids : ∀ t ∈ ts, t.tree.map Node.id
      = (List.range t.tree.length).map (fun (i : Nat) => (i : Int)) := by
    intro t ht
    obtain ⟨s, TF⟩ := hTF t ht
    exact TF.ids
  have hmain := translate_pass_ids ts 0 hids
  have hlen : ((translate_pass ts 0).flatMap tree_rows).length
      = ((translate_pass ts 0).flatMap TreeData.tree).length := by
    have hcg := congrArg List.length (flatMap_rows_ids (translate_pass ts 0))
    simpa using hcg
  rw [hrows, flatMap_rows_ids, hmain, hlen]
  apply List.map_congr_left
  intro i _
  simp

/-- Witness for C10. -/
theorem C10_witness :
    ∃ ts layers' pos' out ts2 pos2,
      run_program 1 1 1 1 (fun _ => 0) = some (ts, layers', pos') ∧
      question_str ts (fun _ => 0) pos' = some (out, ts2, pos2) ∧
      out.rows.map Node.id
        = (List.range out.rows.length).map (fun (i : Nat) => (i : Int)) := by
  obtain ⟨res, hres⟩ := Option.isSome_iff_exists.mp
    (run_program_isSome 1 1 1 1 (fun _ => 0) le_rfl)
  obtain ⟨ts, layers', pos'⟩ := res
  have hne : ts ≠ [] := run_ts_ne_nil hres le_rfl
  have hresq := hres
  unfold run_program at hresq
  obtain ⟨_, hTF, _, _⟩ :=
    question_init_facts 1 1 _ _ _ _ ts layers' pos' hresq
  have hleaf : ∀ t ∈ ts, ∃ r ∈ t.tree, r.y = -(t.num_layers : Int) := by
    intro t ht
    obtain ⟨s, TF⟩ := hTF t ht
    obtain ⟨r, hr, hry⟩ := TF.has_leaf le_rfl
    refine ⟨r, hr, ?_⟩
    rw [TF.nl_eq]
    exact hry
  obtain ⟨so, hso⟩ := Option.isSome_iff_exists.mp
    (question_str_isSome ts (fun _ => 0) pos' hne hleaf)
  obtain ⟨out, ts2, pos2⟩ := so
  exact ⟨ts, layers', pos', out, ts2, pos2, hres, hso,
    C10_consecutive_row_ids 1 1 1 1 (fun _ => 0) ts layers' pos' hres
      out ts2 pos2 hso⟩

/-- C5 is violated by the code (`Question.__str__` has side effects): at
the failing input `NUM_TREES = 2`, `NUM_LAYERS = 1`,
`MIN_CHILD = MAX_CHILD = 1` with the all-zero oracle, calling
`Question.__str__` twice yields `some (false, false)`: the first `false`
says the second output is NOT byte-identical to the first (the translation
pass is re-applied, shifting tree 1's IDs again), and the second `false`
says the first call mutated the stored tree data. -/
theorem C5_export_mutates : c5_double_str = some (false, false) := by decide
